import Mathlib

/-!
Verification development for the SFA (Symbolic Fourier Approximation) transformer
of aeon (src/aeon/transformations/collection/dictionary_based/_sfa.py).

Modelling conventions:
- Python floats are modelled as exact rationals; float arithmetic is treated as
  exact rational arithmetic.
- The transcendental functions cos, sin and sqrt used by the Fourier code are
  taken as opaque parameters of type rational to rational, since the structural
  and counting properties under study do not depend on their values.  A
  parameter cosF represents the map x to cos of two pi x, sinF the map x to
  sin of two pi x, sqrtF the float square root.
- Word values are modelled as Int.  The code stores words as numpy int64
  exactly when word_bits is at most 64 and as Python unbounded ints
  otherwise; at exactly 64 bits the packed bit pattern can reach the sign
  bit, where the int64 value wraps to a negative number (an all-max word
  becomes -1, colliding with the repeat sentinel).  The int64
  reinterpretation is modelled by to_int64 on the packed bit pattern, and
  numpy's arithmetic right shift by Int shift, which keeps -1 at -1.
  Compositions that the source computes in int64 (bigram and pyramid keys on
  the max_bits and word_bits + level_bits at most 64 dispatch paths) reduce
  their bit pattern mod 2^64 and reinterpret; Python-int paths use exact
  Int arithmetic and Int.lor.
- The pyramid quadrant arithmetic int((window_ind + int(window_size / 2)) /
  int(n_timepoints / num_quadrants)) is modelled by Nat division, exact for
  nonnegative in-range values; when n_timepoints / num_quadrants is 0 the
  source raises ZeroDivisionError (large path) or produces garbage through
  int() of an infinite float (njit path), so theorems touching the pyramid
  assume 2^(levels - 1) ≤ n_timepoints, which keeps every divisor positive.
- Python dicts used as bags of words are modelled as association lists with
  first-match lookup; dict contents equality corresponds to pointwise equality
  of bag_get, and the loops below touch bags only through bag_inc, which keeps
  keys unique.
- numpy sort is modelled by insertion sort; the result is the unique sorted
  permutation in either case.
-/

/-- Bit width used to pack one letter: math.ceil of math.log2 of n, implemented
by fuel-bounded structural recursion so that the kernel can reduce it.
Mirrors letter_bits at line 236 of the source. -/
def clog2_go (fuel m : ℕ) : ℕ :=
  match fuel with
  | 0 => 0
  | fuel + 1 => if m ≤ 1 then 0 else clog2_go fuel ((m + 1) / 2) + 1

/-- Ceiling of log2, total on naturals; clog2 0 = clog2 1 = 0. -/
def clog2 (n : ℕ) : ℕ := clog2_go n n

/-- Floor of log2, as computed by int of numpy log2 in the decoder at line
1183 of the source; fuel-bounded structural recursion. -/
def flog2_go (fuel m : ℕ) : ℕ :=
  match fuel with
  | 0 => 0
  | fuel + 1 => if m ≤ 1 then 0 else flog2_go fuel (m / 2) + 1

/-- Floor of log2, total on naturals. -/
def flog2 (n : ℕ) : ℕ := flog2_go n n

/-- Signed value of a bit pattern stored in a numpy int64: reduce mod 2^64
and reinterpret in two's complement.  This is the Python-visible value of
the words built by the njit helpers when word_bits is at most 64. -/
def to_int64 (p : ℕ) : ℤ :=
  if p % 2 ^ 64 < 2 ^ 63 then ((p % 2 ^ 64 : ℕ) : ℤ)
  else ((p % 2 ^ 64 : ℕ) : ℤ) - 2 ^ 64

/-- Two's complement 64-bit pattern of an integer, the bits a numpy int64
holding that value carries. -/
def int64_bits (w : ℤ) : ℕ := (w % (2 ^ 64 : ℤ)).toNat

/-- Configuration and fitted constants shared by the per-series transform
loops.  Only the fields the transform loops read are kept. -/
structure SFAConfig where
  word_length : ℕ
  alphabet_size : ℕ
  window_size : ℕ
  n_timepoints : ℕ
  levels : ℕ
  bigrams : Bool
  skip_grams : Bool
  remove_repeat_words : Bool
deriving DecidableEq, Repr

/-- Derived constant letter_bits = ceil(log2(alphabet_size)), source line 236. -/
def SFAConfig.letter_bits (c : SFAConfig) : ℕ := clog2 c.alphabet_size

/-- Derived constant word_bits = word_length * letter_bits, source line 238. -/
def SFAConfig.word_bits (c : SFAConfig) : ℕ := c.word_length * c.letter_bits

/-- Derived constant level_bits: ceil(log2(sum of 2^i for i < levels)) when
levels > 1, else 0 (the attribute keeps its initial value); source lines
258-263. -/
def SFAConfig.level_bits (c : SFAConfig) : ℕ :=
  if 1 < c.levels then clog2 (2 ^ c.levels - 1) else 0

/-- Derived constant max_bits: word_bits * 2 when bigrams or skip-grams are
enabled, else word_bits; source lines 239-241.  It selects the int64 versus
Python-int path for n-gram composition. -/
def SFAConfig.max_bits (c : SFAConfig) : ℕ :=
  if c.bigrams || c.skip_grams then c.word_bits * 2 else c.word_bits

/-- Index of the first breakpoint bin b with v ≤ row[b], scanning b over
range alphabet_size; inner loop of _create_word, source lines 996-1000. -/
def first_bin_go (v : ℚ) : List ℚ → ℕ → Option ℕ
  | [], _ => none
  | b :: rest, i => if v ≤ b then some i else first_bin_go v rest (i + 1)

/-- First bin of value v in a breakpoint row, restricted to the first
alphabet_size entries as in the source loop over range(alphabet_size). -/
def first_bin (v : ℚ) (row : List ℚ) (alphabet_size : ℕ) : Option ℕ :=
  first_bin_go v (row.take alphabet_size) 0

/-- Packed bit pattern common to _create_word and _create_word_large (source
lines 992-1002 and 1016-1024): for each letter position take the first bin
that the coefficient falls into and pack it into letter_bits fresh low bits;
positions whose coefficient falls into no bin are skipped without shifting,
exactly as the Python loop does.  Both code paths fold the same shift-or
recurrence; they differ only in the carrier type, handled by create_word
below. -/
def create_word_bits (dft : List ℚ) (word_length alphabet_size : ℕ)
    (breakpoints : List (List ℚ)) (letter_bits : ℕ) : ℕ :=
  (List.range word_length).foldl
    (fun word i =>
      match first_bin (dft.getD i 0) (breakpoints.getD i []) alphabet_size with
      | some bp => (word <<< letter_bits) ||| bp
      | none => word)
    0

/-- Word value seen by the transform loop: when word_bits ≤ 64 the source
calls the njit _create_word, whose np.int64 result reinterprets the packed
pattern in two's complement (an all-max pattern at word_bits = 64 becomes
-1); otherwise _create_word_large returns the pattern as an exact Python
int.  The pattern itself stays below 2^64 on the int64 path (it has at most
word_bits bits), so only the sign reinterpretation differs. -/
def create_word (dft : List ℚ) (word_length alphabet_size : ℕ)
    (breakpoints : List (List ℚ)) (letter_bits word_bits : ℕ) : ℤ :=
  if word_bits ≤ 64 then
    to_int64 (create_word_bits dft word_length alphabet_size breakpoints letter_bits)
  else (create_word_bits dft word_length alphabet_size breakpoints letter_bits : ℤ)

/-- Sequence of bin indices actually packed by _create_word, in order;
positions with no containing bin contribute nothing. -/
def packed_letters (dft : List ℚ) (word_length alphabet_size : ℕ)
    (breakpoints : List (List ℚ)) : List ℕ :=
  (List.range word_length).filterMap
    (fun i => first_bin (dft.getD i 0) (breakpoints.getD i []) alphabet_size)

/-- Letter extraction loop of _get_chars (source lines 1180-1193): the i-th
iteration writes the low letter_bits bits of the running word into position
word_length - 1 - i of a uint32 array (hence the reduction mod 2^32), then
shifts the word right. -/
def get_chars_go (mask letter_bits : ℕ) : ℕ → ℕ → List ℕ
  | _, 0 => []
  | word, n + 1 =>
      get_chars_go mask letter_bits (word >>> letter_bits) n
        ++ [(word &&& mask) % 2 ^ 32]

/-- Decoder _get_chars: extracts word_length letters using
letter_bits = int(np.log2(alphabet_size)), the floor of log2 (source line
1183), while the encoder packs with the ceiling of log2. -/
def get_chars (word : ℕ) (word_length alphabet_size : ℕ) : List ℕ :=
  let letter_bits := flog2 alphabet_size
  let mask := (1 <<< letter_bits) - 1
  get_chars_go mask letter_bits word word_length

/-- Letter extraction of _get_chars over the int64 the compiled code holds:
word & mask takes the low letter_bits bits of the two's complement pattern
(the nonnegative remainder mod 2^letter_bits), and word >>= letter_bits is
numpy's arithmetic shift (Int shift). -/
def get_chars_int64_go (letter_bits : ℕ) : ℤ → ℕ → List ℕ
  | _, 0 => []
  | w, n + 1 =>
      get_chars_int64_go letter_bits (w >>> letter_bits) n
        ++ [(w % (2 ^ letter_bits : ℤ)).toNat % 2 ^ 32]

/-- Call boundary of the njit _get_chars (source lines 1178-1193): numba
compiles the function with an int64 word argument, so a caller holding a
word outside the int64 range gets an OverflowError from the argument
coercion instead of a decode; in-range words are decoded with
letter_bits = int(np.log2(alphabet_size)). -/
def get_chars_njit (word : ℤ) (word_length alphabet_size : ℕ) :
    Except String (List ℕ) :=
  if -2 ^ 63 ≤ word ∧ word < 2 ^ 63 then
    .ok (get_chars_int64_go (flog2 alphabet_size) word word_length)
  else .error "OverflowError"

/-- Letter extraction of the plain-Python decoder word_list (source lines
1105-1118) in the no-bigram case: letter j is the letter_max-masked slice at
shift word_bits + level_bits - letter_bits * (j + 1).  The bigram branch
(words longer than word_bits + level_bits bits) and the levels > 1 branch
change the return shape and are outside the words considered here. -/
def word_list (word : ℕ) (word_length letter_bits level_bits letter_max : ℕ) :
    List ℕ :=
  (List.range word_length).map (fun j =>
    (word >>> (word_length * letter_bits + level_bits - letter_bits * (j + 1)))
      &&& letter_max)

/-- Word shortening _shorten_words (source lines 1074-1088): drop amount
letters off the low end.  Both dispatch targets shift right arithmetically:
the njit _shorten_word on np.int64 (numpy >> sign extends, so -1 stays -1)
and _shorten_word_large on Python ints; Int shift is both. -/
def shorten_word (word : ℤ) (amount letter_bits : ℕ) : ℤ :=
  word >>> (amount * letter_bits)

/-- Bigram composition _create_bigram_words (source lines 1051-1072): earlier
word in the high bits, current word in the low word_bits bits.  When
max_bits ≤ 64 the njit _create_bigram_word computes in int64: compose the
two's complement patterns, reduce mod 2^64 and reinterpret (so the key wraps
negative when the composition reaches the sign bit); otherwise
_create_bigram_word_large computes over Python ints, modelled by exact
shift and Int.lor. -/
def create_bigram_word (word other_word : ℤ) (word_bits max_bits : ℕ) : ℤ :=
  if max_bits ≤ 64 then
    to_int64 ((int64_bits word <<< word_bits) ||| int64_bits other_word)
  else Int.lor (word * 2 ^ word_bits) other_word

/-- Bags of words: association lists from word keys (int64 or Python int
values, hence Int) to counts, with first-match lookup, modelling Python dict
content. -/
abbrev Bag := List (ℤ × ℕ)

/-- Lookup with default 0, modelling bag.get(word, 0). -/
def bag_get : Bag → ℤ → ℕ
  | [], _ => 0
  | p :: rest, k => if p.1 = k then p.2 else bag_get rest k

/-- Increment a key by c, modelling bag[key] = bag.get(key, 0) + c. -/
def bag_inc : Bag → ℤ → ℕ → Bag
  | [], k, c => [(k, c)]
  | p :: rest, k, c => if p.1 = k then (k, p.2 + c) :: rest else p :: bag_inc rest k c

/-- Total of all counts in a bag. -/
def bag_total (b : Bag) : ℕ := (b.map Prod.snd).sum

/-- Plain accumulation _add_to_bag (source lines 921-928): suppress a repeat
of the previously emitted word when numerosity reduction is on, else count
the word once.  Returns the updated bag and the repeat flag. -/
def add_to_bag (c : SFAConfig) (bag : Bag) (word last_word : ℤ) :
    Bag × Bool :=
  if c.remove_repeat_words ∧ word = last_word then (bag, true)
  else (bag_inc bag word 1, false)

/-- Pyramid level key of _add_level / _add_level_large (source lines 964-981):
tag the word with the quadrant index at this level and report the quadrant
count 2^level.  When word_bits + level_bits ≤ 64 the njit _add_level computes
(word << level_bits) | quadrant in int64, modelled on the two's complement
pattern with reinterpretation; the large path computes it over Python ints.
The quadrant divisions are modelled by Nat division, exact while
n_timepoints / num_quadrants is positive; theorems below assume
2^(levels - 1) ≤ n_timepoints so that the source never divides by zero
here. -/
def add_level (c : SFAConfig) (word : ℤ) (start level window_ind : ℕ) :
    ℤ × ℕ :=
  let num_quadrants := 2 ^ level
  let quadrant := start +
    (window_ind + c.window_size / 2) / (c.n_timepoints / num_quadrants)
  (if c.word_bits + c.level_bits ≤ 64 then
     to_int64 ((int64_bits word <<< c.level_bits) ||| quadrant)
   else Int.lor (word * 2 ^ c.level_bits) (quadrant : ℤ),
   num_quadrants)

/-- Pyramid accumulation _add_to_pyramid (source lines 930-962), non-typed
path.  For each level the tagged word is counted with weight 2^level. -/
def add_to_pyramid (c : SFAConfig) (bag : Bag) (word last_word : ℤ)
    (window_ind : ℕ) : Bag × Bool :=
  if c.remove_repeat_words ∧ word = last_word then (bag, true)
  else
    (((List.range c.levels).foldl
        (fun (acc : Bag × ℕ) i =>
          let r := add_level c word acc.2 i window_ind
          (bag_inc acc.1 r.1 r.2, acc.2 + r.2))
        (bag, 0)).1,
     false)

/-- Pyramid tagging of an n-gram key, (bigram << level_bits) | 0 on the
non-typed levels > 1 path (source lines 402-406): the n-gram key is an
np.int64 when max_bits ≤ 64 (the shift wraps in int64) and a Python int
otherwise (exact shift; | 0 is the identity, kept as Int.lor for
faithfulness). -/
def ngram_level_key (c : SFAConfig) (w : ℤ) : ℤ :=
  if c.max_bits ≤ 64 then to_int64 (int64_bits w <<< c.level_bits)
  else Int.lor (w * 2 ^ c.level_bits) 0

/-- Loop state of _transform_case: the bag being built, the last emitted word
(sentinel -1 before any emission), the run length of suppressed repeats, the
current window index, and the per-window words stored so far. -/
structure TState where
  bag : Bag
  last_word : ℤ
  repeat_words : ℕ
  idx : ℕ
  words : List ℤ
deriving DecidableEq, Repr

/-- Initial state of the _transform_case loop (source lines 356-364). -/
def init_tstate : TState := ⟨[], -1, 0, 0, []⟩

/-- One iteration of the window loop of _transform_case (source lines
366-422): encode the window, store it, add it to the bag or pyramid, update
the repeat tracker, then add bigram and skip-gram composites keyed with
word_bits-wide shifts. -/
def transform_step (c : SFAConfig) (bps : List (List ℚ)) (st : TState)
    (dft : List ℚ) : TState :=
  let word_raw := create_word dft c.word_length c.alphabet_size bps
    c.letter_bits c.word_bits
  let words' := st.words ++ [word_raw]
  let add :=
    if 1 < c.levels then
      add_to_pyramid c st.bag word_raw st.last_word (st.idx - st.repeat_words / 2)
    else add_to_bag c st.bag word_raw st.last_word
  let last' := if add.2 then st.last_word else word_raw
  let repeats' := if add.2 then st.repeat_words + 1 else 0
  let bag2 :=
    if c.bigrams ∧ c.window_size ≤ st.idx then
      let bigram := create_bigram_word (words'.getD (st.idx - c.window_size) 0)
        word_raw c.word_bits c.max_bits
      let key := if 1 < c.levels then ngram_level_key c bigram else bigram
      bag_inc add.1 key 1
    else add.1
  let bag3 :=
    if c.skip_grams then
      ([2, 3] : List ℕ).foldl
        (fun b s =>
          if s * c.window_size ≤ st.idx then
            let sg := create_bigram_word (words'.getD (st.idx - s * c.window_size) 0)
              word_raw c.word_bits c.max_bits
            let key := if 1 < c.levels then ngram_level_key c sg else sg
            bag_inc b key 1
          else b)
        bag2
    else bag2
  ⟨bag3, last', repeats', st.idx + 1, words'⟩

/-- Per-series transform loop of _transform_case over the rows of the
windowed Fourier matrix. -/
def transform_case (c : SFAConfig) (bps : List (List ℚ))
    (dfts : List (List ℚ)) : TState :=
  dfts.foldl (transform_step c bps) init_tstate

/-- Loop state of _shorten_case: same as the transform loop but the words
array is the saved input, not an output. -/
structure SState where
  bag : Bag
  last_word : ℤ
  repeat_words : ℕ
  idx : ℕ
deriving DecidableEq, Repr

/-- One iteration of the window loop of _shorten_case (source lines 860-910):
shorten the saved word, accumulate, and compose bigrams and skip-grams of
shortened words; note the bigram shift width is the original full-length
word_bits of the fitted transformer. -/
def shorten_step (c : SFAConfig) (saved : List ℤ) (word_len : ℕ) (st : SState)
    (word : ℤ) : SState :=
  let new_word := shorten_word word (c.word_length - word_len) c.letter_bits
  let add :=
    if 1 < c.levels then
      add_to_pyramid c st.bag new_word st.last_word (st.idx - st.repeat_words / 2)
    else add_to_bag c st.bag new_word st.last_word
  let last' := if add.2 then st.last_word else new_word
  let repeats' := if add.2 then st.repeat_words + 1 else 0
  let bag2 :=
    if c.bigrams ∧ c.window_size ≤ st.idx then
      let bigram := create_bigram_word
        (shorten_word (saved.getD (st.idx - c.window_size) 0)
          (c.word_length - word_len) c.letter_bits)
        new_word c.word_bits c.max_bits
      let key := if 1 < c.levels then ngram_level_key c bigram else bigram
      bag_inc add.1 key 1
    else add.1
  let bag3 :=
    if c.skip_grams then
      ([2, 3] : List ℕ).foldl
        (fun b s =>
          if s * c.window_size ≤ st.idx then
            let sg := create_bigram_word
              (shorten_word (saved.getD (st.idx - s * c.window_size) 0)
                (c.word_length - word_len) c.letter_bits)
              new_word c.word_bits c.max_bits
            let key := if 1 < c.levels then ngram_level_key c sg else sg
            bag_inc b key 1
          else b)
        bag2
    else bag2
  ⟨bag3, last', repeats', st.idx + 1⟩

/-- Bag rebuilt from one saved word array at a shorter word length, the body
of _shorten_case. -/
def shorten_case (c : SFAConfig) (word_len : ℕ) (saved : List ℤ) : Bag :=
  (saved.foldl (shorten_step c saved word_len) ⟨[], -1, 0, 0⟩).bag

/-- Error message raised by _shorten_bags when words were not saved, source
lines 808-811. -/
def shorten_bags_error : String :=
  "Words from transform must be saved using save_word to shorten bags."

/-- Top level _shorten_bags (source lines 807-842): fails unless save_words
was enabled, silently clamps an oversized target length to the fitted
word_length, then rebuilds one bag per saved word array. -/
def shorten_bags (c : SFAConfig) (save_words : Bool)
    (saved : List (List ℤ)) (word_len : ℕ) : Except String (List Bag) :=
  if save_words = false then .error shorten_bags_error
  else
    let wl := if c.word_length < word_len then c.word_length else word_len
    .ok (saved.map (shorten_case c wl))

/-- Configuration fields read by the validation prologue of _fit. -/
structure FitConfig where
  word_length : ℕ
  alphabet_size : ℕ
  levels : ℕ
  binning_method : String
  bigrams : Bool
  skip_grams : Bool
  typed_dict : Bool
deriving DecidableEq, Repr

/-- Errors raised by the validation prologue of _fit, in source order
(lines 214-255). -/
inductive FitError where
  | alphabet_too_small
  | word_length_too_small
  | missing_labels
  | invalid_binning_method
  | typed_dict_bits
  | typed_dict_levels
deriving DecidableEq, Repr

/-- Recognized binning method names, source lines 26-32. -/
def binning_method_names : List String :=
  ["equi-depth", "equi-width", "information-gain", "information-gain-mae", "kmeans"]

/-- Derived bit-width constants computed by _fit after validation, source
lines 236-241. -/
structure FitConstants where
  letter_bits : ℕ
  letter_max : ℕ
  word_bits : ℕ
  max_bits : ℕ
deriving DecidableEq, Repr

/-- Validation prologue of _fit (source lines 200-268), with numba enabled so
that the effective typed-dict flag equals the configured one.  All raises
happen before breakpoints are computed, so an error leaves no fit state; the
Except structure mirrors that.  The bit-budget and level checks fire only on
the typed-dict path. -/
def fit_validate (c : FitConfig) (has_labels : Bool) :
    Except FitError FitConstants :=
  if c.alphabet_size < 2 then .error .alphabet_too_small
  else if c.word_length < 1 then .error .word_length_too_small
  else if (c.binning_method = "information-gain" ∨
      c.binning_method = "information-gain-mae") ∧ has_labels = false then
    .error .missing_labels
  else if c.binning_method ∉ binning_method_names then
    .error .invalid_binning_method
  else
    let letter_bits := clog2 c.alphabet_size
    let word_bits := c.word_length * letter_bits
    let max_bits := if c.bigrams || c.skip_grams then word_bits * 2 else word_bits
    if c.typed_dict ∧ 64 < max_bits then .error .typed_dict_bits
    else if c.typed_dict ∧ 15 < c.levels then .error .typed_dict_levels
    else .ok ⟨letter_bits, 2 ^ letter_bits - 1, word_bits, max_bits⟩

/-- Largest finite double, the value of sys.float_info.max that the binning
code writes into the last breakpoint column (source lines 538, 567, 585). -/
def FLOAT_MAX : ℚ := (2 ^ 53 - 1) * 2 ^ 971

/-- Python round: round half to even, other values to the nearest integer. -/
def py_round (q : ℚ) : ℤ :=
  if q - ⌊q⌋ = 1 / 2 then (if ⌊q⌋ % 2 = 0 then ⌊q⌋ else ⌊q⌋ + 1) else round q

/-- Multiple coefficient binning _mcb (source lines 541-568): per letter,
round the pooled coefficients to two decimals, sort them, then place
alphabet_size - 1 thresholds by equi-depth or equi-width; rows for any other
method keep their zero initialisation.  The last column of every row is set
to sys.float_info.max. -/
def mcb (dft : List (List ℚ)) (word_length alphabet_size n_cases n_timepoints
    window_size : ℕ) (binning_method : String) : List (List ℚ) :=
  let num_windows_per_inst := (n_timepoints + window_size - 1) / window_size
  let total_num_windows := n_cases * num_windows_per_inst
  (List.range word_length).map (fun letter =>
    let res := (List.range total_num_windows).map
      (fun i => (py_round ((dft.getD i []).getD letter 0 * 100) : ℚ) / 100)
    let column := res.insertionSort (· ≤ ·)
    let row :=
      if binning_method = "equi-depth" then
        let target : ℚ := (total_num_windows : ℚ) / (alphabet_size : ℚ)
        (List.range (alphabet_size - 1)).map (fun bp =>
          column.getD (⌊((bp + 1 : ℕ) : ℚ) * target⌋.toNat) 0)
      else if binning_method = "equi-width" then
        let lo := column.getD 0 0
        let hi := column.getD (column.length - 1) 0
        let width := (hi - lo) / (alphabet_size : ℚ)
        (List.range (alphabet_size - 1)).map (fun bp =>
          ((bp + 1 : ℕ) : ℚ) * width + lo)
      else List.replicate (alphabet_size - 1) 0
    row ++ [FLOAT_MAX])

/-- Breakpoint row built by _igb and _igb_mae (source lines 570-606) from the
split thresholds of an externally fitted decision tree: thresholds fill the
first slots, remaining slots are sys.float_info.max, and the whole row is
sorted.  The tree itself is external to this module; its thresholds enter as
an argument. -/
def igb_row (threshold : List ℚ) (alphabet_size : ℕ) : List ℚ :=
  ((threshold.take alphabet_size)
      ++ List.replicate (alphabet_size - (threshold.take alphabet_size).length)
        FLOAT_MAX).insertionSort (· ≤ ·)

/-- Breakpoint matrix of _igb or _igb_mae from per-letter threshold lists. -/
def igb (thresholds : List (List ℚ)) (alphabet_size : ℕ) : List (List ℚ) :=
  thresholds.map (fun t => igb_row t alphabet_size)

/-- Breakpoint row built by _k_bins_discretizer (source lines 526-539) from
the bin edges of an external KBinsDiscretizer: interior edges fill the first
slots, untouched slots keep their zero initialisation, and the last column is
sys.float_info.max. -/
def k_bins_row (breaks : List ℚ) (alphabet_size : ℕ) : List ℚ :=
  (List.range alphabet_size).map (fun j =>
    if j = alphabet_size - 1 then FLOAT_MAX
    else if j + 1 < breaks.length - 1 then breaks.getD (j + 1) 0
    else 0)

/-- numpy population variance of a list, the square of np.std. -/
def np_variance (series : List ℚ) : ℚ :=
  let n : ℚ := (series.length : ℚ)
  let mean := series.sum / n
  (series.map (fun x => (x - mean) * (x - mean))).sum / n

/-- Divisor selection of the direct O(n^2) Fourier transform
_discrete_fourier_transform, source lines 724-726: the standard deviation is
replaced by 1 only when it is exactly zero. -/
def dft_std_divisor (s : ℚ) : ℚ := if s = 0 then 1 else s

/-- Divisor selection of the FFT-based path _fast_fourier_transform, source
line 660: the standard deviation is replaced by 1 unless it exceeds 1e-8. -/
def fft_std_divisor (s : ℚ) : ℚ := if 1 / 10 ^ 8 < s then s else 1

/-- Entry selection of _calc_incremental_mean_std, source lines 1037 and
1047: the computed window deviation is replaced by 1 unless it exceeds
1e-8. -/
def inc_std_entry (buf : ℚ) : ℚ := if 1 / 10 ^ 8 < buf then buf else 1

/-- Real part accumulation of the direct transform at frequency i, source
lines 712-715: the sum over n of series[n] * cos(2 pi n i / len). -/
def dft_sum_real (cosF : ℚ → ℚ) (series : List ℚ) (i : ℕ) : ℚ :=
  (List.range series.length).foldl
    (fun a n => a + series.getD n 0 * cosF (((n * i : ℕ) : ℚ) / (series.length : ℚ)))
    0

/-- Imaginary part accumulation of the direct transform at frequency i,
source lines 716-718. -/
def dft_sum_imag (sinF : ℚ → ℚ) (series : List ℚ) (i : ℕ) : ℚ :=
  (List.range series.length).foldl
    (fun a n => a - series.getD n 0 * sinF (((n * i : ℕ) : ℚ) / (series.length : ℚ)))
    0

/-- Sign flip of every imaginary slot, the slice assignment dft[1::2] *= -1. -/
def neg_odd : List ℚ → List ℚ
  | r :: im :: rest => r :: -im :: neg_odd rest
  | l => l

/-- Direct O(n^2) Fourier transform _discrete_fourier_transform (source lines
677-729), parametric in the trigonometric and square-root primitives.  With
apply_normalising_factor the imaginary parts are optionally sign flipped and
the whole vector is scaled by inverse_sqrt_win_size over the (floored only at
exactly zero) standard deviation. -/
def discrete_fourier_transform (cosF sinF sqrtF : ℚ → ℚ) (series : List ℚ)
    (dft_length : ℕ) (norm : Bool) (inverse_sqrt_win_size : ℚ)
    (lower_bounding apply_normalising_factor cut_start_if_norm : Bool) :
    List ℚ :=
  let start := if norm then 2 else 0
  let output_length := start + dft_length
  let c := if cut_start_if_norm then start / 2 else 0
  let pairs := ((List.range' c (output_length / 2 - c)).map
    (fun i => [dft_sum_real cosF series i, dft_sum_imag sinF series i])).flatten
  if apply_normalising_factor then
    let flipped := if lower_bounding then neg_odd pairs else pairs
    let std := dft_std_divisor (sqrtF (np_variance series))
    flipped.map (· * (inverse_sqrt_win_size / std))
  else pairs

/-- Rotation factors _get_phis (source lines 782-789): pairs of
cos(2 pi (-i) / window_size) and -sin(2 pi (-i) / window_size). -/
def get_phis (cosF sinF : ℚ → ℚ) (window_size length : ℕ) : List ℚ :=
  ((List.range (length / 2)).map
    (fun i => [cosF (-(i : ℚ) / (window_size : ℚ)),
               -sinF (-(i : ℚ) / (window_size : ℚ))])).flatten

/-- Tail of _calc_incremental_mean_std (source lines 1039-1047): slide the
window one step at a time, updating the running sum and square sum, and emit
the floored standard deviation of each window. -/
def calc_inc_std_go (sqrtF : ℚ → ℚ) (series : List ℚ) (window_size : ℕ)
    (r : ℚ) : ℕ → ℕ → ℚ → ℚ → List ℚ
  | 0, _, _, _ => []
  | n + 1, w, series_sum, square_sum =>
      let enter := series.getD (w + window_size - 1) 0
      let leave := series.getD (w - 1) 0
      let series_sum' := series_sum + enter - leave
      let mean := series_sum' * r
      let square_sum' := square_sum + enter * enter - leave * leave
      let buf := sqrtF (square_sum' * r - mean * mean)
      inc_std_entry buf ::
        calc_inc_std_go sqrtF series window_size r n (w + 1) series_sum' square_sum'

/-- Incremental window deviations _calc_incremental_mean_std (source lines
1026-1049): the first window is computed directly, every later window by the
O(1) update; every entry is floored to 1 unless it exceeds 1e-8. -/
def calc_incremental_mean_std (sqrtF : ℚ → ℚ) (series : List ℚ)
    (end_ window_size : ℕ) : List ℚ :=
  let window := series.take window_size
  let series_sum := window.sum
  let square_sum := (window.map (fun x => x * x)).sum
  let r : ℚ := 1 / (window_size : ℚ)
  let mean := series_sum * r
  let buf := sqrtF (square_sum * r - mean * mean)
  inc_std_entry buf ::
    calc_inc_std_go sqrtF series window_size r (end_ - 1) 1 series_sum square_sum

/-- Pairwise rotation update of _iterate_mft (source lines 797-802): add the
entering sample and subtract the leaving one on every real slot, then rotate
each complex pair by its phi factor. -/
def update_mft_pairs (delta : ℚ) : List ℚ → List ℚ → List ℚ
  | r :: im :: rest, pr :: pi :: prest =>
      let real := r + delta
      (real * pr - im * pi) :: (real * pi + pr * im) ::
        update_mft_pairs delta rest prest
  | l, _ => l

/-- Row-emitting loop of _iterate_mft (source lines 791-805): window i derives
its unnormalised coefficients from window i-1 and is scaled by
inverse_sqrt_win_size over its incremental standard deviation. -/
def iterate_mft (series phis : List ℚ) (window_size : ℕ) (stds : List ℚ)
    (inverse_sqrt_win_size : ℚ) : ℕ → ℕ → List ℚ → List (List ℚ)
  | 0, _, _ => []
  | n + 1, i, mft_data =>
      let delta := series.getD (i + window_size - 1) 0 - series.getD (i - 1) 0
      let mft_data' := update_mft_pairs delta mft_data phis
      mft_data'.map (· * (inverse_sqrt_win_size / stds.getD i 1)) ::
        iterate_mft series phis window_size stds inverse_sqrt_win_size n (i + 1) mft_data'

/-- Incremental windowed transform _mft (source lines 731-780): one
coefficient row per sliding window, with end = max(1, n - w + 1) windows; the
first row is seeded by the direct transform without normalisation, later rows
by the rotation recurrence; afterwards the imaginary columns are sign flipped
when lower_bounding is set, the first start_offset columns are cut, and an
ANOVA support selection is applied when present. -/
def mft (cosF sinF sqrtF : ℚ → ℚ) (window_size dft_length : ℕ)
    (norm lower_bounding lower_bounding_distances : Bool)
    (inverse_sqrt_win_size : ℚ) (support : Option (List ℕ))
    (series : List ℚ) : List (List ℚ) :=
  let start_offset := if norm then 2 else 0
  let length := dft_length + start_offset + dft_length % 2
  let end_ := max 1 (series.length - window_size + 1)
  let phis := get_phis cosF sinF window_size length
  let stds := calc_incremental_mean_std sqrtF series end_ window_size
  let mft_data := discrete_fourier_transform cosF sinF sqrtF
    (series.take window_size) dft_length norm inverse_sqrt_win_size
    (lower_bounding || lower_bounding_distances) false false
  let row0 := mft_data.map (· * (inverse_sqrt_win_size / stds.getD 0 1))
  let transformed := row0 ::
    iterate_mft series phis window_size stds inverse_sqrt_win_size (end_ - 1) 1 mft_data
  let flipped := if lower_bounding then transformed.map neg_odd else transformed
  let cut := flipped.map (List.drop start_offset)
  match support with
  | some sup => cut.map (fun row => sup.map (fun j => row.getD j 0))
  | none => cut

/-- Big-endian packing of a letter sequence, the normal form of the
_create_word fold once every position falls into a bin. -/
def pack_letters (letter_bits : ℕ) (ls : List ℕ) : ℕ :=
  ls.foldl (fun w l => (w <<< letter_bits) ||| l) 0

theorem lor_shift_add (w l b : ℕ) (h : l < 2 ^ b) :
    (w <<< b) ||| l = w * 2 ^ b + l := by
  rw [Nat.shiftLeft_eq, Nat.mul_comm w, ← Nat.mul_add_lt_is_or h w, Nat.mul_comm]

theorem pack_letters_spec (b : ℕ) (ls : List ℕ) (h : ∀ l ∈ ls, l < 2 ^ b) :
    (∀ w0 : ℕ, ls.foldl (fun w l => (w <<< b) ||| l) w0
      = w0 * 2 ^ (b * ls.length) + pack_letters b ls)
    ∧ pack_letters b ls < 2 ^ (b * ls.length) := by
  induction ls with
  | nil => simp [pack_letters]
  | cons l ls ih =>
    have hl : l < 2 ^ b := h l (by simp)
    have ih' := ih (fun x hx => h x (by simp [hx]))
    constructor
    · intro w0
      have h1 : pack_letters b (l :: ls)
          = l * 2 ^ (b * ls.length) + pack_letters b ls := by
        show ls.foldl _ ((0 <<< b) ||| l) = _
        rw [ih'.1 ((0 <<< b) ||| l), lor_shift_add 0 l b hl]
        ring_nf
      show ls.foldl _ ((w0 <<< b) ||| l) = _
      rw [ih'.1 ((w0 <<< b) ||| l), lor_shift_add w0 l b hl, h1,
        List.length_cons, Nat.mul_succ, pow_add]
      ring
    · have h1 : pack_letters b (l :: ls)
          = l * 2 ^ (b * ls.length) + pack_letters b ls := by
        show ls.foldl _ ((0 <<< b) ||| l) = _
        rw [ih'.1 ((0 <<< b) ||| l), lor_shift_add 0 l b hl]
        ring_nf
      rw [h1, List.length_cons, Nat.mul_succ, pow_add]
      calc l * 2 ^ (b * ls.length) + pack_letters b ls
          < l * 2 ^ (b * ls.length) + 2 ^ (b * ls.length) := by
            exact Nat.add_lt_add_left ih'.2 _
        _ = (l + 1) * 2 ^ (b * ls.length) := by ring
        _ ≤ 2 ^ b * 2 ^ (b * ls.length) := by
            exact Nat.mul_le_mul_right _ hl
        _ = 2 ^ (b * ls.length) * 2 ^ b := by ring

theorem pack_letters_append (b : ℕ) (xs ys : List ℕ)
    (hys : ∀ l ∈ ys, l < 2 ^ b) :
    pack_letters b (xs ++ ys)
      = pack_letters b xs * 2 ^ (b * ys.length) + pack_letters b ys := by
  unfold pack_letters
  rw [List.foldl_append]
  exact (pack_letters_spec b ys hys).1 _

theorem pack_letters_append_shift (b : ℕ) (xs ys : List ℕ)
    (hys : ∀ l ∈ ys, l < 2 ^ b) :
    pack_letters b (xs ++ ys) >>> (ys.length * b) = pack_letters b xs := by
  rw [pack_letters_append b xs ys hys, Nat.shiftRight_eq_div_pow,
    Nat.mul_comm ys.length b]
  have h2 : 0 < 2 ^ (b * ys.length) := Nat.pos_pow_of_pos _ (by norm_num)
  rw [Nat.add_comm, Nat.mul_comm (pack_letters b xs),
    Nat.add_mul_div_left _ _ h2,
    Nat.div_eq_of_lt (pack_letters_spec b ys hys).2, Nat.zero_add]

theorem clog2_go_le_pow : ∀ fuel m, 1 ≤ m → m ≤ fuel → m ≤ 2 ^ clog2_go fuel m := by
  intro fuel
  induction fuel with
  | zero => intro m h1 h2; omega
  | succ fuel ih =>
    intro m h1 h2
    unfold clog2_go
    by_cases hm : m ≤ 1
    · rw [if_pos hm]
      simp only [pow_zero]
      omega
    · simp only [hm, if_false]
      have h3 : 1 ≤ (m + 1) / 2 := by omega
      have h4 : (m + 1) / 2 ≤ fuel := by omega
      have := ih ((m + 1) / 2) h3 h4
      rw [pow_succ]
      omega

theorem le_pow_clog2 (n : ℕ) (h : 1 ≤ n) : n ≤ 2 ^ clog2 n :=
  clog2_go_le_pow n n h le_rfl

theorem clog2_go_pow : ∀ fuel k, 2 ^ k ≤ fuel → clog2_go fuel (2 ^ k) = k := by
  intro fuel
  induction fuel with
  | zero => intro k h; exfalso; have := Nat.pos_pow_of_pos k (by norm_num : 0 < 2); omega
  | succ fuel ih =>
    intro k h
    unfold clog2_go
    match k with
    | 0 => simp
    | k + 1 =>
      have h2 : ¬ 2 ^ (k + 1) ≤ 1 := by
        have : 2 ^ (k + 1) ≥ 2 := by
          calc 2 ^ (k + 1) ≥ 2 ^ 1 := Nat.pow_le_pow_right (by norm_num) (by omega)
            _ = 2 := by norm_num
        omega
      simp only [h2, if_false]
      have h3 : (2 ^ (k + 1) + 1) / 2 = 2 ^ k := by
        rw [pow_succ]
        omega
      rw [h3, ih k]
      have h4 : 2 ^ k < 2 ^ (k + 1) := Nat.pow_lt_pow_right (by norm_num) (by omega)
      omega

theorem clog2_pow (k : ℕ) : clog2 (2 ^ k) = k :=
  clog2_go_pow (2 ^ k) k le_rfl

theorem flog2_go_pow : ∀ fuel k, 2 ^ k ≤ fuel → flog2_go fuel (2 ^ k) = k := by
  intro fuel
  induction fuel with
  | zero => intro k h; exfalso; have := Nat.pos_pow_of_pos k (by norm_num : 0 < 2); omega
  | succ fuel ih =>
    intro k h
    unfold flog2_go
    match k with
    | 0 => simp
    | k + 1 =>
      have h2 : ¬ 2 ^ (k + 1) ≤ 1 := by
        have : 2 ^ (k + 1) ≥ 2 := by
          calc 2 ^ (k + 1) ≥ 2 ^ 1 := Nat.pow_le_pow_right (by norm_num) (by omega)
            _ = 2 := by norm_num
        omega
      simp only [h2, if_false]
      have h3 : 2 ^ (k + 1) / 2 = 2 ^ k := by
        rw [pow_succ]
        omega
      rw [h3, ih k]
      have h4 : 2 ^ k < 2 ^ (k + 1) := Nat.pow_lt_pow_right (by norm_num) (by omega)
      omega

theorem flog2_pow (k : ℕ) : flog2 (2 ^ k) = k :=
  flog2_go_pow (2 ^ k) k le_rfl

theorem first_bin_go_some_lt (v : ℚ) :
    ∀ (l : List ℚ) (s i : ℕ), first_bin_go v l s = some i → i < s + l.length := by
  intro l
  induction l with
  | nil => intro s i h; simp [first_bin_go] at h
  | cons b rest ih =>
    intro s i h
    unfold first_bin_go at h
    by_cases hv : v ≤ b
    · simp [hv] at h
      simp [← h]
    · simp [hv] at h
      have := ih (s + 1) i h
      simp only [List.length_cons]
      omega

theorem first_bin_some_lt (v : ℚ) (row : List ℚ) (as i : ℕ)
    (h : first_bin v row as = some i) : i < as := by
  have h2 := first_bin_go_some_lt v (row.take as) 0 i h
  have h3 : (row.take as).length ≤ as := by
    simp [List.length_take]
  omega

theorem first_bin_go_isSome (v : ℚ) :
    ∀ (l : List ℚ) (s : ℕ), (∃ b ∈ l, v ≤ b) → (first_bin_go v l s).isSome = true := by
  intro l
  induction l with
  | nil => intro s h; simp at h
  | cons b rest ih =>
    intro s h
    unfold first_bin_go
    by_cases hv : v ≤ b
    · simp [hv]
    · simp [hv]
      apply ih
      obtain ⟨x, hx, hvx⟩ := h
      simp at hx
      rcases hx with rfl | hx
      · exact absurd hvx hv
      · exact ⟨x, hx, hvx⟩

theorem getD_take_of_lt {α : Type} :
    ∀ (l : List α) (n i : ℕ) (d : α), i < n → (l.take n).getD i d = l.getD i d := by
  intro l
  induction l with
  | nil => intro n i d _; simp
  | cons a l ih =>
    intro n i d hin
    match n, i with
    | n + 1, 0 => simp
    | n + 1, i + 1 =>
      simp only [List.take_succ_cons, List.getD_cons_succ]
      exact ih n i d (by omega)

theorem bag_get_inc (b : Bag) (k k' : ℤ) (c : ℕ) :
    bag_get (bag_inc b k c) k' = bag_get b k' + if k' = k then c else 0 := by
  induction b with
  | nil =>
    by_cases h : k = k'
    · simp [bag_inc, bag_get, h]
    · have h2 : ¬ k' = k := fun hh => h hh.symm
      simp [bag_inc, bag_get, h, h2]
  | cons p rest ih =>
    by_cases hp : p.1 = k
    · by_cases h : k' = k
      · subst h
        simp [bag_inc, bag_get, hp]
      · have h2 : ¬ k = k' := fun hh => h hh.symm
        simp [bag_inc, bag_get, hp, h, h2]
    · by_cases hq : p.1 = k'
      · have h3 : ¬ k' = k := fun hh => hp (hh ▸ hq)
        simp [bag_inc, bag_get, hp, hq, h3]
      · simp [bag_inc, bag_get, hp, hq, ih]

theorem bag_total_inc (b : Bag) (k : ℤ) (c : ℕ) :
    bag_total (bag_inc b k c) = bag_total b + c := by
  induction b with
  | nil => simp [bag_inc, bag_total]
  | cons p rest ih =>
    by_cases hp : p.1 = k
    · simp [bag_inc, hp, bag_total]
      omega
    · simp [bag_inc, hp, bag_total] at *
      omega

theorem bag_inc_ne_nil (b : Bag) (k : ℤ) (c : ℕ) : bag_inc b k c ≠ [] := by
  cases b with
  | nil => simp [bag_inc]
  | cons p rest =>
    by_cases hp : p.1 = k
    · simp [bag_inc, hp]
    · simp [bag_inc, hp]

theorem foldl_match_congr (f : ℕ → Option ℕ) (bits : ℕ) :
    ∀ (idx : List ℕ), (∀ i ∈ idx, (f i).isSome = true) → ∀ w0 : ℕ,
    idx.foldl (fun word i =>
        match f i with
        | some bp => (word <<< bits) ||| bp
        | none => word) w0
      = idx.foldl (fun w i => (w <<< bits) ||| (f i).getD 0) w0 := by
  intro idx
  induction idx with
  | nil => intro _ w0; rfl
  | cons i idx ih =>
    intro h w0
    obtain ⟨b, hb⟩ := Option.isSome_iff_exists.mp (h i (by simp))
    simp only [List.foldl_cons, hb, Option.getD_some]
    exact ih (fun j hj => h j (by simp [hj])) _

theorem create_word_eq_pack (dft : List ℚ) (wl as : ℕ) (bps : List (List ℚ))
    (bits : ℕ)
    (hq : ∀ i, i < wl → (first_bin (dft.getD i 0) (bps.getD i []) as).isSome = true) :
    create_word_bits dft wl as bps bits
      = pack_letters bits ((List.range wl).map
          (fun i => (first_bin (dft.getD i 0) (bps.getD i []) as).getD 0)) := by
  unfold create_word_bits pack_letters
  rw [List.foldl_map]
  exact foldl_match_congr _ bits (List.range wl)
    (fun i hi => hq i (List.mem_range.mp hi)) 0

theorem to_int64_of_lt (p : ℕ) (h : p < 2 ^ 63) : to_int64 p = (p : ℤ) := by
  unfold to_int64
  have hmod : p % 2 ^ 64 = p := Nat.mod_eq_of_lt (by omega)
  rw [hmod, if_pos h]

theorem int64_bits_ofNat (p : ℕ) (h : p < 2 ^ 64) : int64_bits (p : ℤ) = p := by
  unfold int64_bits
  have hcast : ((p : ℤ) % (2 ^ 64 : ℤ)) = ((p % 2 ^ 64 : ℕ) : ℤ) := by
    push_cast
    rfl
  rw [hcast, Nat.mod_eq_of_lt h, Int.toNat_ofNat]

theorem intCast_shiftRight (w k : ℕ) : ((w : ℤ) >>> k) = ((w >>> k : ℕ) : ℤ) := by
  simp [Int.shiftRight_eq_div_pow, Nat.shiftRight_eq_div_pow, Int.ofNat_div]

theorem neg_one_shiftRight (k : ℕ) : ((-1 : ℤ) >>> k) = -1 := by
  rw [Int.shiftRight_eq_div_pow]
  have hpos : (0 : ℤ) < (2 ^ k : ℕ) := by positivity
  have hsplit : (-1 : ℤ) = ((2 ^ k : ℕ) - 1) + ((2 ^ k : ℕ)) * (-1) := by ring
  rw [hsplit, Int.add_mul_ediv_left _ _ (by omega),
    Int.ediv_eq_zero_of_lt (by omega) (by omega)]
  omega

theorem create_word_fold_lt (f : ℕ → Option ℕ) (bits : ℕ)
    (hf : ∀ i b, f i = some b → b < 2 ^ bits) :
    ∀ (idx : List ℕ) (w0 m : ℕ), w0 < 2 ^ m →
    idx.foldl (fun word i =>
      match f i with
      | some bp => (word <<< bits) ||| bp
      | none => word) w0 < 2 ^ (m + bits * idx.length) := by
  intro idx
  induction idx with
  | nil => intro w0 m h; simpa using h
  | cons i idx ih =>
    intro w0 m hw0
    simp only [List.foldl_cons, List.length_cons]
    have hexp : m + bits * (idx.length + 1) = (m + bits) + bits * idx.length := by
      ring
    rw [hexp]
    rcases hfi : f i with _ | b
    · simp only [hfi]
      exact ih w0 (m + bits)
        (lt_of_lt_of_le hw0 (Nat.pow_le_pow_right (by norm_num) (by omega)))
    · simp only [hfi]
      apply ih
      have hb : b < 2 ^ bits := hf i b hfi
      have hor : (w0 <<< bits) ||| b = w0 * 2 ^ bits + b := by
        rw [Nat.shiftLeft_eq, Nat.mul_comm w0, ← Nat.mul_add_lt_is_or hb w0,
          Nat.mul_comm]
      rw [hor, pow_add]
      calc w0 * 2 ^ bits + b < w0 * 2 ^ bits + 2 ^ bits := by omega
        _ = (w0 + 1) * 2 ^ bits := by ring
        _ ≤ 2 ^ m * 2 ^ bits := Nat.mul_le_mul_right _ (by omega)

theorem create_word_bits_lt (dft : List ℚ) (wl as : ℕ) (bps : List (List ℚ))
    (bits : ℕ) (has : as ≤ 2 ^ bits) :
    create_word_bits dft wl as bps bits < 2 ^ (bits * wl) := by
  have h := create_word_fold_lt
    (fun i => first_bin (dft.getD i 0) (bps.getD i []) as) bits
    (fun i b hb => Nat.lt_of_lt_of_le (first_bin_some_lt _ _ _ _ hb) has)
    (List.range wl) 0 0 (by norm_num)
  simpa [create_word_bits] using h

theorem create_word_eq_cast (dft : List ℚ) (wl as : ℕ) (bps : List (List ℚ))
    (bits wb : ℕ) (hlt : create_word_bits dft wl as bps bits < 2 ^ 63) :
    create_word dft wl as bps bits wb
      = (create_word_bits dft wl as bps bits : ℤ) := by
  unfold create_word
  split_ifs
  · exact to_int64_of_lt _ hlt
  · rfl

theorem create_word_small (dft : List ℚ) (wl as : ℕ) (bps : List (List ℚ))
    (bits wb : ℕ) (has : as ≤ 2 ^ bits) (hwb : bits * wl ≤ 63) :
    create_word dft wl as bps bits wb
      = (create_word_bits dft wl as bps bits : ℤ)
    ∧ 0 ≤ create_word dft wl as bps bits wb := by
  have hlt : create_word_bits dft wl as bps bits < 2 ^ 63 :=
    lt_of_lt_of_le (create_word_bits_lt dft wl as bps bits has)
      (Nat.pow_le_pow_right (by norm_num) hwb)
  have heq := create_word_eq_cast dft wl as bps bits wb hlt
  exact ⟨heq, by rw [heq]; positivity⟩

theorem filterMap_eq_map_of_isSome {α β : Type} (f : α → Option β) (d : β) :
    ∀ l : List α, (∀ a ∈ l, (f a).isSome = true) →
    l.filterMap f = l.map (fun a => (f a).getD d) := by
  intro l
  induction l with
  | nil => intro _; rfl
  | cons a l ih =>
    intro h
    obtain ⟨b, hb⟩ := Option.isSome_iff_exists.mp (h a (by simp))
    simp only [List.filterMap_cons, hb, List.map_cons, Option.getD_some]
    rw [ih (fun x hx => h x (by simp [hx]))]

theorem packed_letters_eq_map (dft : List ℚ) (wl as : ℕ) (bps : List (List ℚ))
    (hq : ∀ i, i < wl → (first_bin (dft.getD i 0) (bps.getD i []) as).isSome = true) :
    packed_letters dft wl as bps
      = (List.range wl).map
          (fun i => (first_bin (dft.getD i 0) (bps.getD i []) as).getD 0) := by
  unfold packed_letters
  exact filterMap_eq_map_of_isSome _ 0 (List.range wl)
    (fun i hi => hq i (List.mem_range.mp hi))

theorem letter_lt_of_isSome (dft : List ℚ) (bps : List (List ℚ)) (as bits i : ℕ)
    (hbits : as ≤ 2 ^ bits)
    (hi : (first_bin (dft.getD i 0) (bps.getD i []) as).isSome = true) :
    (first_bin (dft.getD i 0) (bps.getD i []) as).getD 0 < 2 ^ bits := by
  obtain ⟨b, hb⟩ := Option.isSome_iff_exists.mp hi
  rw [hb, Option.getD_some]
  exact Nat.lt_of_lt_of_le (first_bin_some_lt _ _ _ _ hb) hbits

theorem shorten_create_word (dft : List ℚ) (wl L as bits : ℕ)
    (bps : List (List ℚ)) (hL : L ≤ wl) (hbits : as ≤ 2 ^ bits)
    (hq : ∀ i, i < wl → (first_bin (dft.getD i 0) (bps.getD i []) as).isSome = true) :
    create_word_bits dft wl as bps bits >>> ((wl - L) * bits)
      = create_word_bits dft L as (bps.take L) bits := by
  have hqL : ∀ i, i < L →
      (first_bin (dft.getD i 0) ((bps.take L).getD i []) as).isSome = true := by
    intro i hiL
    rw [getD_take_of_lt bps L i [] hiL]
    exact hq i (Nat.lt_of_lt_of_le hiL hL)
  rw [create_word_eq_pack dft wl as bps bits hq,
    create_word_eq_pack dft L as (bps.take L) bits hqL]
  have hsplit : List.range wl = List.range L ++ (List.range (wl - L)).map (L + ·) := by
    rw [← List.range_add L (wl - L)]
    congr 1
    omega
  rw [hsplit, List.map_append, List.map_map]
  have hys : ∀ x ∈ ((List.range (wl - L)).map
      ((fun i => (first_bin (dft.getD i 0) (bps.getD i []) as).getD 0) ∘ (L + ·))),
      x < 2 ^ bits := by
    intro x hx
    obtain ⟨j, hj, rfl⟩ := List.mem_map.mp hx
    have hjlt : L + j < wl := by
      have := List.mem_range.mp hj
      omega
    exact letter_lt_of_isSome dft bps as bits (L + j) hbits (hq _ hjlt)
  have hlen : ((List.range (wl - L)).map
      ((fun i => (first_bin (dft.getD i 0) (bps.getD i []) as).getD 0) ∘ (L + ·))).length
      = wl - L := by simp
  have key := pack_letters_append_shift bits
    ((List.range L).map (fun i => (first_bin (dft.getD i 0) (bps.getD i []) as).getD 0))
    _ hys
  rw [hlen] at key
  rw [key]
  apply congrArg
  apply List.map_congr_left
  intro i hi
  rw [getD_take_of_lt bps L i [] (List.mem_range.mp hi)]

theorem shorten_word_cast (p amount bits : ℕ) :
    shorten_word (p : ℤ) amount bits = ((p >>> (amount * bits) : ℕ) : ℤ) := by
  unfold shorten_word
  exact intCast_shiftRight p (amount * bits)

theorem shorten_word_neg_one (amount bits : ℕ) :
    shorten_word (-1 : ℤ) amount bits = -1 :=
  neg_one_shiftRight (amount * bits)

theorem get_chars_int64_go_ofNat (bits : ℕ) :
    ∀ (n w : ℕ),
    get_chars_int64_go bits (w : ℤ) n = get_chars_go ((1 <<< bits) - 1) bits w n := by
  intro n
  induction n with
  | zero => intro w; rfl
  | succ n ih =>
    intro w
    simp only [get_chars_int64_go, get_chars_go]
    rw [intCast_shiftRight, ih]
    have hm : (1 <<< bits) = 2 ^ bits := by
      rw [Nat.shiftLeft_eq, Nat.one_mul]
    have hand : w &&& ((1 <<< bits) - 1) = w % 2 ^ bits := by
      rw [hm, Nat.and_pow_two_sub_one_eq_mod]
    have hcast : ((w : ℤ) % (2 ^ bits : ℤ)).toNat = w % 2 ^ bits := by
      have hc2 : ((w : ℤ) % (2 ^ bits : ℤ)) = ((w % 2 ^ bits : ℕ) : ℤ) := by
        push_cast
        rfl
      rw [hc2, Int.toNat_ofNat]
    rw [hand, hcast]

theorem get_chars_njit_ofNat (w wl as : ℕ) (h : w < 2 ^ 63) :
    get_chars_njit (w : ℤ) wl as = Except.ok (get_chars w wl as) := by
  unfold get_chars_njit get_chars
  rw [if_pos ⟨le_trans (by norm_num) (Int.ofNat_nonneg w), by exact_mod_cast h⟩,
    get_chars_int64_go_ofNat]

theorem get_chars_njit_overflow (w : ℤ) (wl as : ℕ) (h : 2 ^ 63 ≤ w) :
    get_chars_njit w wl as = Except.error "OverflowError" := by
  unfold get_chars_njit
  rw [if_neg (fun hc => absurd hc.2 (not_lt.mpr h))]

theorem get_chars_go_pack (bits : ℕ) (hb : bits ≤ 32) :
    ∀ (ls : List ℕ), (∀ l ∈ ls, l < 2 ^ bits) →
    get_chars_go ((1 <<< bits) - 1) bits (pack_letters bits ls) ls.length = ls := by
  intro ls
  induction ls using List.reverseRecOn with
  | nil => intro _; rfl
  | append_singleton xs l ih =>
    intro h
    have hl : l < 2 ^ bits := h l (by simp)
    have hxs : ∀ x ∈ xs, x < 2 ^ bits := fun x hx => h x (by simp [hx])
    have hys : ∀ x ∈ [l], x < 2 ^ bits := by simpa using hl
    have hone : pack_letters bits [l] = l := by
      simp [pack_letters, Nat.zero_shiftLeft]
    have hpack : pack_letters bits (xs ++ [l])
        = pack_letters bits xs * 2 ^ bits + l := by
      rw [pack_letters_append bits xs [l] hys, hone]
      norm_num
    have hlen : (xs ++ [l]).length = xs.length + 1 := by simp
    rw [hlen]
    simp only [get_chars_go]
    have hshift : pack_letters bits (xs ++ [l]) >>> bits = pack_letters bits xs := by
      have := pack_letters_append_shift bits xs [l] hys
      simpa using this
    have hmask : (pack_letters bits (xs ++ [l]) &&& ((1 <<< bits) - 1)) % 2 ^ 32 = l := by
      have hm : (1 <<< bits) = 2 ^ bits := by
        rw [Nat.shiftLeft_eq, Nat.one_mul]
      rw [hm, Nat.and_pow_two_sub_one_eq_mod, hpack, Nat.add_comm,
        Nat.add_mul_mod_self_right, Nat.mod_eq_of_lt hl]
      exact Nat.mod_eq_of_lt
        (Nat.lt_of_lt_of_le hl (Nat.pow_le_pow_right (by norm_num) hb))
    rw [hshift, hmask, ih hxs]

/-- C3 (counterexample): with alphabet_size 3 the encoder packs each letter in
ceil(log2(3)) = 2 bits while _get_chars extracts int(np.log2(3)) = 1 bit per
letter, so decoding the packed word does not reproduce the packed bin
indices: the coefficients 50 and -1 quantize to letters 2 and 0, the packed
word is 8 (in the int64 range, so the njit decoder receives it), and the
decoder returns 0 and 0. -/
theorem get_chars_not_inverse_alphabet_three :
    get_chars_njit
        (create_word [(50 : ℚ), -1] 2 3 [[0, 1, 100], [0, 1, 100]]
          (clog2 3) (2 * clog2 3)) 2 3
      ≠ Except.ok (packed_letters [(50 : ℚ), -1] 2 3 [[0, 1, 100], [0, 1, 100]]) := by
  intro h
  have hl : get_chars_njit
      (create_word [(50 : ℚ), -1] 2 3 [[0, 1, 100], [0, 1, 100]]
        (clog2 3) (2 * clog2 3)) 2 3
      = Except.ok [0, 0] := by rfl
  rw [hl] at h
  exact absurd (Except.ok.inj h).symm (by decide)

theorem round_trip_pow2 (k wl : ℕ) (bps : List (List ℚ))
    (dft : List ℚ) (hk2 : k ≤ 32)
    (hq : ∀ i, i < wl →
      (first_bin (dft.getD i 0) (bps.getD i []) (2 ^ k)).isSome = true) :
    get_chars (create_word_bits dft wl (2 ^ k) bps k) wl (2 ^ k)
      = packed_letters dft wl (2 ^ k) bps := by
  rw [create_word_eq_pack dft wl (2 ^ k) bps k hq,
    packed_letters_eq_map dft wl (2 ^ k) bps hq]
  unfold get_chars
  rw [flog2_pow k]
  have hlen : ((List.range wl).map
      (fun i => (first_bin (dft.getD i 0) (bps.getD i []) (2 ^ k)).getD 0)).length
      = wl := by simp
  have hbound : ∀ l ∈ ((List.range wl).map
      (fun i => (first_bin (dft.getD i 0) (bps.getD i []) (2 ^ k)).getD 0)),
      l < 2 ^ k := by
    intro l hlmem
    obtain ⟨i, hi, rfl⟩ := List.mem_map.mp hlmem
    exact letter_lt_of_isSome dft bps (2 ^ k) k i le_rfl (hq i (List.mem_range.mp hi))
  have key := get_chars_go_pack k hk2 _ hbound
  rw [hlen] at key
  exact key

/-- C3 (amended): when the alphabet size is a power of two (so that the
ceiling and floor of its log2 agree) with at most 32 bits per letter, the
word stays within the nonnegative int64 range (word_length * letter_bits at
most 63, so the njit decoder can receive it unwrapped), and every
coefficient position falls into some bin, decoding the word produced by
_create_word via the njit _get_chars reproduces exactly the sequence of
packed bin indices, in order. -/
theorem get_chars_create_word_pow2 (k wl : ℕ) (bps : List (List ℚ))
    (dft : List ℚ) (hk1 : 1 ≤ k) (hk2 : k ≤ 32) (hwl : 1 ≤ wl)
    (hwb : wl * k ≤ 63)
    (hq : ∀ i, i < wl →
      (first_bin (dft.getD i 0) (bps.getD i []) (2 ^ k)).isSome = true) :
    get_chars_njit (create_word dft wl (2 ^ k) bps (clog2 (2 ^ k)) (wl * k))
        wl (2 ^ k)
      = Except.ok (packed_letters dft wl (2 ^ k) bps) := by
  rw [clog2_pow k]
  have hlt : create_word_bits dft wl (2 ^ k) bps k < 2 ^ 63 :=
    lt_of_lt_of_le (create_word_bits_lt dft wl (2 ^ k) bps k le_rfl)
      (Nat.pow_le_pow_right (by norm_num) (by rw [Nat.mul_comm]; exact hwb))
  rw [create_word_eq_cast dft wl (2 ^ k) bps k (wl * k) hlt,
    get_chars_njit_ofNat _ _ _ hlt, round_trip_pow2 k wl bps dft hk2 hq]

/-- C3 (witness) for the amended round-trip theorem at a concrete input. -/
theorem get_chars_create_word_pow2_witness :
    (1 ≤ 1 ∧ (1 : ℕ) ≤ 32 ∧ 1 ≤ 2 ∧ 2 * 1 ≤ 63)
    ∧ get_chars_njit
        (create_word [(1 : ℚ), -1] 2 (2 ^ 1) [[0, 10], [0, 10]]
          (clog2 (2 ^ 1)) (2 * 1)) 2 (2 ^ 1)
      = Except.ok (packed_letters [(1 : ℚ), -1] 2 (2 ^ 1) [[0, 10], [0, 10]]) :=
  ⟨⟨le_rfl, by norm_num, by norm_num, by norm_num⟩,
   get_chars_create_word_pow2 1 2 [[0, 10], [0, 10]] [(1 : ℚ), -1]
     le_rfl (by norm_num) (by norm_num) (by norm_num) (by decide)⟩

theorem pack_letters_singleton (bits l : ℕ) : pack_letters bits [l] = l := by
  simp [pack_letters, Nat.zero_shiftLeft]

theorem word_list_pack (bits : ℕ) (ls : List ℕ)
    (h : ∀ l ∈ ls, l < 2 ^ bits) :
    word_list (pack_letters bits ls) ls.length bits 0 (2 ^ bits - 1) = ls := by
  apply List.ext_getElem
  · simp [word_list]
  · intro j hj1 hj2
    simp only [word_list, List.length_map, List.length_range] at hj1
    simp only [word_list, List.getElem_map, List.getElem_range]
    have hsplit : ls = ls.take (j + 1) ++ ls.drop (j + 1) :=
      (List.take_append_drop (j + 1) ls).symm
    have hdlen : (ls.drop (j + 1)).length = ls.length - (j + 1) := by
      simp
    have hshift : ls.length * bits + 0 - bits * (j + 1)
        = (ls.drop (j + 1)).length * bits := by
      rw [hdlen]
      have : j + 1 ≤ ls.length := hj2
      calc ls.length * bits + 0 - bits * (j + 1)
          = ls.length * bits - (j + 1) * bits := by ring_nf
        _ = (ls.length - (j + 1)) * bits := by
            rw [Nat.sub_mul]
    have hdropb : ∀ l ∈ ls.drop (j + 1), l < 2 ^ bits :=
      fun l hl => h l (List.mem_of_mem_drop hl)
    have hkey := pack_letters_append_shift bits (ls.take (j + 1))
      (ls.drop (j + 1)) hdropb
    rw [List.take_append_drop] at hkey
    rw [hshift, hkey]
    have htk : ls.take (j + 1) = ls.take j ++ [ls[j]] := by
      rw [List.take_succ, List.getElem?_eq_getElem hj2]
      rfl
    have hone : ∀ l ∈ [ls[j]], l < 2 ^ bits := by
      intro l hl
      rw [List.mem_singleton.mp hl]
      exact h _ (List.getElem_mem _)
    have hp : pack_letters bits (ls.take (j + 1))
        = pack_letters bits (ls.take j) * 2 ^ bits + ls[j] := by
      rw [htk, pack_letters_append bits _ _ hone, pack_letters_singleton]
      norm_num
    rw [hp, Nat.and_pow_two_sub_one_eq_mod, Nat.add_comm,
      Nat.add_mul_mod_self_right, Nat.mod_eq_of_lt (h _ (List.getElem_mem _))]

/-- C2 (counterexample): with word_length 40 and alphabet_size 256 (letter
bits 8, word bits 320 greater than 64) the default configuration, whose
typed_dict flag is off, does not raise at fit time: validation succeeds and
the transform silently uses the large-word path. -/
theorem fit_default_large_word_no_error :
    fit_validate ⟨40, 256, 1, "equi-depth", false, false, false⟩ true
      = Except.ok ⟨8, 255, 320, 320⟩ := by
  rfl

/-- C2 (amended): with word_length 40 and alphabet_size 256 (letter_bits 8,
word_bits 320), fitting raises only when the typed-dict fallback container
is requested; the default configuration succeeds with the constants
8/255/320/320, the transform's large-word path carries the exact packed
Python integer (no int64 reinterpretation), the plain-Python word_list
utility decodes that integer to the packed bin indices, and the njit
_get_chars decoder cannot receive any word at or above 2^63 (its int64
argument coercion overflows), so the large words are not decodable through
get_words. -/
theorem fit_large_word_boundary (dft : List ℚ) (bps : List (List ℚ))
    (hq : ∀ i, i < 40 →
      (first_bin (dft.getD i 0) (bps.getD i []) 256).isSome = true) :
    fit_validate ⟨40, 256, 1, "equi-depth", false, false, true⟩ true
      = Except.error FitError.typed_dict_bits
    ∧ fit_validate ⟨40, 256, 1, "equi-depth", false, false, false⟩ true
      = Except.ok ⟨8, 255, 320, 320⟩
    ∧ create_word dft 40 256 bps (clog2 256) 320
      = (create_word_bits dft 40 256 bps (clog2 256) : ℤ)
    ∧ word_list (create_word_bits dft 40 256 bps (clog2 256)) 40 (clog2 256) 0 255
      = packed_letters dft 40 256 bps
    ∧ ∀ w : ℤ, 2 ^ 63 ≤ w →
        get_chars_njit w 40 256 = Except.error "OverflowError" := by
  have h256 : (256 : ℕ) = 2 ^ 8 := by norm_num
  have hc8 : clog2 256 = 8 := by rw [h256, clog2_pow]
  refine ⟨by rfl, by rfl, ?_, ?_, fun w hw => get_chars_njit_overflow w 40 256 hw⟩
  · unfold create_word
    rw [if_neg (by norm_num)]
  · rw [hc8, create_word_eq_pack dft 40 256 bps 8 hq,
      packed_letters_eq_map dft 40 256 bps hq]
    have hlen : ((List.range 40).map
        (fun i => (first_bin (dft.getD i 0) (bps.getD i []) 256).getD 0)).length
        = 40 := by simp
    have hbound : ∀ l ∈ (List.range 40).map
        (fun i => (first_bin (dft.getD i 0) (bps.getD i []) 256).getD 0),
        l < 2 ^ 8 := by
      intro l hlmem
      obtain ⟨i, hi, rfl⟩ := List.mem_map.mp hlmem
      exact letter_lt_of_isSome dft bps 256 8 i (by norm_num)
        (hq i (List.mem_range.mp hi))
    have h255 : (255 : ℕ) = 2 ^ 8 - 1 := by norm_num
    have key := word_list_pack 8 _ hbound
    rw [hlen] at key
    rw [h255]
    exact key

/-- C2 (witness) at a concrete all-zero coefficient matrix. -/
theorem fit_large_word_boundary_witness :
    (∀ i, i < 40 →
      (first_bin ((List.replicate 40 (0 : ℚ)).getD i 0)
        ((List.replicate 40 [(0 : ℚ)]).getD i []) 256).isSome = true)
    ∧ (fit_validate ⟨40, 256, 1, "equi-depth", false, false, true⟩ true
        = Except.error FitError.typed_dict_bits
      ∧ fit_validate ⟨40, 256, 1, "equi-depth", false, false, false⟩ true
        = Except.ok ⟨8, 255, 320, 320⟩
      ∧ create_word (List.replicate 40 (0 : ℚ)) 40 256
            (List.replicate 40 [(0 : ℚ)]) (clog2 256) 320
        = (create_word_bits (List.replicate 40 (0 : ℚ)) 40 256
            (List.replicate 40 [(0 : ℚ)]) (clog2 256) : ℤ)
      ∧ word_list (create_word_bits (List.replicate 40 (0 : ℚ)) 40 256
            (List.replicate 40 [(0 : ℚ)]) (clog2 256)) 40 (clog2 256) 0 255
        = packed_letters (List.replicate 40 (0 : ℚ)) 40 256
            (List.replicate 40 [(0 : ℚ)])
      ∧ ∀ w : ℤ, 2 ^ 63 ≤ w →
          get_chars_njit w 40 256 = Except.error "OverflowError") :=
  ⟨by decide, fit_large_word_boundary _ _ (by decide)⟩

/-- C4 (amended): with the typed-dict fallback disabled, which is the
default, fit validation fails exactly when alphabet_size < 2, or
word_length < 1, or an information-gain method is requested without labels,
or the binning method name is unrecognized; an error therefore leaves no fit
state, since the constants are only returned on the success path. -/
theorem fit_validate_error_iff (c : FitConfig) (has_labels : Bool)
    (htd : c.typed_dict = false) :
    (∃ e, fit_validate c has_labels = Except.error e)
      ↔ (c.alphabet_size < 2 ∨ c.word_length < 1
        ∨ ((c.binning_method = "information-gain"
            ∨ c.binning_method = "information-gain-mae") ∧ has_labels = false)
        ∨ c.binning_method ∉ binning_method_names) := by
  simp only [fit_validate, htd]
  split_ifs with h1 h2 h3 h4 <;> simp_all

/-- C4 (witness): a too-small alphabet is reported as an error. -/
theorem fit_validate_error_iff_witness :
    ∃ e, fit_validate ⟨8, 1, 1, "equi-depth", false, false, false⟩ true
      = Except.error e :=
  (fit_validate_error_iff ⟨8, 1, 1, "equi-depth", false, false, false⟩ true rfl).mpr
    (Or.inl (by norm_num))

/-- C4 (counterexample): with the typed-dict fallback enabled, fit also fails
on word_length 33 with alphabet_size 4 (word bits 66 greater than 64) even
though none of the four listed conditions holds, so the listed conditions are
not exactly the failure conditions over all configurations. -/
theorem fit_validate_typed_dict_extra_error :
    ¬((33 : ℕ) < 2 ∨ (33 : ℕ) < 1
      ∨ (("equi-depth" = "information-gain" ∨ "equi-depth" = "information-gain-mae")
          ∧ True)
      ∨ ("equi-depth" : String) ∉ binning_method_names)
    ∧ fit_validate ⟨33, 4, 1, "equi-depth", false, false, true⟩ true
      = Except.error FitError.typed_dict_bits := by
  constructor
  · decide
  · rfl

/-- C7: invoking word-length shortening without save_words raises the
prerequisite error, and a target length strictly greater than the fitted
word_length is silently clamped, producing the same output as shortening to
word_length. -/
theorem shorten_bags_prerequisites (c : SFAConfig) (saved : List (List ℤ))
    (word_len : ℕ) (h : c.word_length < word_len) :
    shorten_bags c false saved word_len = Except.error shorten_bags_error
    ∧ shorten_bags c true saved word_len
      = shorten_bags c true saved c.word_length := by
  constructor
  · rfl
  · unfold shorten_bags
    simp [h, Nat.lt_irrefl]

/-- C7 (witness) at a concrete configuration and saved word array. -/
theorem shorten_bags_prerequisites_witness :
    ((⟨2, 2, 1, 2, 1, false, false, false⟩ : SFAConfig).word_length < 5)
    ∧ shorten_bags ⟨2, 2, 1, 2, 1, false, false, false⟩ false [[3]] 5
        = Except.error shorten_bags_error
    ∧ shorten_bags ⟨2, 2, 1, 2, 1, false, false, false⟩ true [[3]] 5
        = shorten_bags ⟨2, 2, 1, 2, 1, false, false, false⟩ true [[3]]
            (⟨2, 2, 1, 2, 1, false, false, false⟩ : SFAConfig).word_length :=
  ⟨by norm_num,
   (shorten_bags_prerequisites ⟨2, 2, 1, 2, 1, false, false, false⟩ [[3]] 5
     (by norm_num)).1,
   (shorten_bags_prerequisites ⟨2, 2, 1, 2, 1, false, false, false⟩ [[3]] 5
     (by norm_num)).2⟩

theorem inc_std_entry_cases (buf : ℚ) :
    inc_std_entry buf = 1 ∨ 1 / 10 ^ 8 < inc_std_entry buf := by
  unfold inc_std_entry
  split_ifs with h
  · exact Or.inr h
  · exact Or.inl rfl

theorem calc_inc_std_go_mem (sqrtF : ℚ → ℚ) (series : List ℚ)
    (window_size : ℕ) (r : ℚ) :
    ∀ (n w : ℕ) (ss sq x : ℚ),
    x ∈ calc_inc_std_go sqrtF series window_size r n w ss sq →
    x = 1 ∨ 1 / 10 ^ 8 < x := by
  intro n
  induction n with
  | zero => intro w ss sq x hx; simp [calc_inc_std_go] at hx
  | succ n ih =>
    intro w ss sq x hx
    simp only [calc_inc_std_go, List.mem_cons] at hx
    rcases hx with rfl | hx
    · exact inc_std_entry_cases _
    · exact ih _ _ _ x hx

/-- C6 (counterexample): the window consisting of 0 and 1e-9 has exact
standard deviation 5e-10 (its square is the numpy variance of the window),
which is nonzero and below the 1e-8 threshold, yet the divisor selection of
the direct O(n^2) Fourier transform keeps it instead of flooring it to 1:
that path floors only an exactly zero standard deviation. -/
theorem dft_std_divisor_not_floored :
    ((1 / (2 * 10 ^ 9) : ℚ) * (1 / (2 * 10 ^ 9)) = np_variance [0, 1 / 10 ^ 9]
      ∧ (0 : ℚ) < 1 / (2 * 10 ^ 9)
      ∧ (1 / (2 * 10 ^ 9) : ℚ) < 1 / 10 ^ 8)
    ∧ dft_std_divisor (1 / (2 * 10 ^ 9)) = 1 / (2 * 10 ^ 9)
    ∧ dft_std_divisor (1 / (2 * 10 ^ 9)) ≠ 1 := by
  refine ⟨⟨?_, by norm_num, by norm_num⟩, ?_, ?_⟩
  · norm_num [np_variance]
  · norm_num [dft_std_divisor]
  · norm_num [dft_std_divisor]

/-- C6 (amended): the incremental sliding-window normalization floors every
deviation at most 1e-8 to 1, and every divisor it emits is either 1 or
exceeds 1e-8 (so that path never divides by a near-zero value); the
FFT-based binning path applies the same floor; the direct O(n^2) per-window
Fourier computation, however, floors only an exactly zero standard deviation
and divides by the true near-zero value otherwise. -/
theorem std_floor_behaviour (sqrtF : ℚ → ℚ) (series : List ℚ)
    (end_ window_size : ℕ) (buf s : ℚ)
    (hbuf : buf ≤ 1 / 10 ^ 8) (hs : s ≠ 0) :
    inc_std_entry buf = 1
    ∧ fft_std_divisor buf = 1
    ∧ (∀ x ∈ calc_incremental_mean_std sqrtF series end_ window_size,
        x = 1 ∨ 1 / 10 ^ 8 < x)
    ∧ dft_std_divisor s = s := by
  refine ⟨?_, ?_, ?_, ?_⟩
  · unfold inc_std_entry
    rw [if_neg (not_lt.mpr hbuf)]
  · unfold fft_std_divisor
    rw [if_neg (not_lt.mpr hbuf)]
  · intro x hx
    simp only [calc_incremental_mean_std, List.mem_cons] at hx
    rcases hx with rfl | hx
    · exact inc_std_entry_cases _
    · exact calc_inc_std_go_mem sqrtF series window_size _ _ _ _ _ x hx
  · simp [dft_std_divisor, hs]

/-- C6 (witness) for the amended floor behaviour at concrete inputs. -/
theorem std_floor_behaviour_witness :
    ((0 : ℚ) ≤ 1 / 10 ^ 8 ∧ (5 : ℚ) ≠ 0)
    ∧ (inc_std_entry 0 = 1
      ∧ fft_std_divisor 0 = 1
      ∧ (∀ x ∈ calc_incremental_mean_std (fun _ => 0) [1, 2, 3] 2 2,
          x = 1 ∨ 1 / 10 ^ 8 < x)
      ∧ dft_std_divisor 5 = 5) :=
  ⟨⟨by norm_num, by norm_num⟩,
   std_floor_behaviour (fun _ => 0) [1, 2, 3] 2 2 0 5 (by norm_num) (by norm_num)⟩

/-- Pointwise bag domination: every count in the first bag is at most the
corresponding count in the second. -/
def bag_le (b1 b2 : Bag) : Prop := ∀ k, bag_get b1 k ≤ bag_get b2 k

theorem bag_le_refl (b : Bag) : bag_le b b := fun _ => le_rfl

theorem bag_le_trans {a b c : Bag} (h1 : bag_le a b) (h2 : bag_le b c) :
    bag_le a c := fun k => le_trans (h1 k) (h2 k)

theorem bag_le_inc (b : Bag) (k : ℤ) (n : ℕ) : bag_le b (bag_inc b k n) := by
  intro k'
  rw [bag_get_inc]
  exact Nat.le_add_right _ _

theorem foldl_pair_bag_le {α : Type} (g : Bag × ℕ → α → Bag × ℕ)
    (h : ∀ acc a, bag_le acc.1 (g acc a).1) :
    ∀ (l : List α) (acc : Bag × ℕ), bag_le acc.1 (l.foldl g acc).1 := by
  intro l
  induction l with
  | nil => intro acc; exact bag_le_refl _
  | cons a l ih =>
    intro acc
    exact bag_le_trans (h acc a) (ih (g acc a))

theorem foldl_bag_le {α : Type} (f : Bag → α → Bag)
    (h : ∀ b a, bag_le b (f b a)) :
    ∀ (l : List α) (b : Bag), bag_le b (l.foldl f b) := by
  intro l
  induction l with
  | nil => intro b; exact bag_le_refl _
  | cons a l ih =>
    intro b
    exact bag_le_trans (h b a) (ih (f b a))

theorem add_to_bag_le (c : SFAConfig) (b : Bag) (w lw : ℤ) :
    bag_le b (add_to_bag c b w lw).1 := by
  unfold add_to_bag
  split_ifs
  · exact bag_le_refl _
  · exact bag_le_inc _ _ _

theorem add_to_pyramid_le (c : SFAConfig) (b : Bag) (w lw : ℤ)
    (wi : ℕ) : bag_le b (add_to_pyramid c b w lw wi).1 := by
  unfold add_to_pyramid
  split_ifs
  · exact bag_le_refl _
  · exact foldl_pair_bag_le _ (fun acc a => bag_le_inc _ _ _) _ (b, 0)

theorem bag_le_tail_ops (b1 : Bag) (skip : Bool) (bigCond : Prop)
    [Decidable bigCond] (k1 : ℤ) (f : Bag → ℕ → Bag)
    (hf : ∀ b a, bag_le b (f b a)) (l : List ℕ) :
    bag_le b1 (if skip then l.foldl f (if bigCond then bag_inc b1 k1 1 else b1)
               else (if bigCond then bag_inc b1 k1 1 else b1)) := by
  have h2 : bag_le b1 (if bigCond then bag_inc b1 k1 1 else b1) := by
    split_ifs
    · exact bag_le_inc _ _ _
    · exact bag_le_refl _
  by_cases hs : skip = true
  · rw [if_pos hs]
    exact bag_le_trans h2 (foldl_bag_le f hf l _)
  · rw [if_neg hs]
    exact h2

theorem transform_step_bag_le (c : SFAConfig) (bps : List (List ℚ))
    (st : TState) (d : List ℚ) :
    bag_le st.bag (transform_step c bps st d).bag := by
  unfold transform_step
  dsimp only
  apply bag_le_trans (b :=
    (if 1 < c.levels then
      add_to_pyramid c st.bag
        (create_word d c.word_length c.alphabet_size bps c.letter_bits c.word_bits)
        st.last_word (st.idx - st.repeat_words / 2)
    else
      add_to_bag c st.bag
        (create_word d c.word_length c.alphabet_size bps c.letter_bits c.word_bits)
        st.last_word).1)
  · split_ifs
    · exact add_to_pyramid_le _ _ _ _ _
    · exact add_to_bag_le _ _ _ _
  · apply bag_le_tail_ops
    intro b a
    split_ifs <;> first
      | exact bag_le_inc _ _ _
      | exact bag_le_refl _

theorem transform_foldl_bag_le (c : SFAConfig) (bps : List (List ℚ)) :
    ∀ (dfts : List (List ℚ)) (st : TState) (k : ℤ),
    bag_get st.bag k ≤ bag_get (dfts.foldl (transform_step c bps) st).bag k := by
  intro dfts
  induction dfts with
  | nil => intro st k; exact le_rfl
  | cons d dfts ih =>
    intro st k
    exact le_trans (transform_step_bag_le c bps st d k) (ih _ k)

theorem foldl_pair_ne_nil {α : Type} (g : Bag × ℕ → α → Bag × ℕ)
    (h : ∀ acc a, (g acc a).1 ≠ []) :
    ∀ (l : List α) (acc : Bag × ℕ), (acc.1 ≠ [] ∨ l ≠ []) →
    (l.foldl g acc).1 ≠ [] := by
  intro l
  induction l with
  | nil =>
    intro acc hacc
    rcases hacc with hacc | hacc
    · exact hacc
    · exact absurd rfl hacc
  | cons a l ih =>
    intro acc _
    exact ih (g acc a) (Or.inl (h acc a))

theorem foldl_bag_ne_nil {α : Type} (f : Bag → α → Bag)
    (h : ∀ b a, b ≠ [] → f b a ≠ []) :
    ∀ (l : List α) (b : Bag), b ≠ [] → l.foldl f b ≠ [] := by
  intro l
  induction l with
  | nil => intro b hb; exact hb
  | cons a l ih => intro b hb; exact ih (f b a) (h b a hb)

theorem add_to_bag_ne_nil (c : SFAConfig) (b : Bag) (w lw : ℤ)
    (hb : b ≠ []) : (add_to_bag c b w lw).1 ≠ [] := by
  unfold add_to_bag
  split_ifs
  · exact hb
  · exact bag_inc_ne_nil _ _ _

theorem add_to_pyramid_ne_nil (c : SFAConfig) (b : Bag) (w lw : ℤ)
    (wi : ℕ) (hb : b ≠ []) : (add_to_pyramid c b w lw wi).1 ≠ [] := by
  unfold add_to_pyramid
  split_ifs
  · exact hb
  · exact foldl_pair_ne_nil _ (fun acc a => bag_inc_ne_nil _ _ _) _ (b, 0)
      (Or.inl hb)

theorem ne_nil_tail_ops (b1 : Bag) (skip : Bool) (bigCond : Prop)
    [Decidable bigCond] (k1 : ℤ) (f : Bag → ℕ → Bag)
    (hf : ∀ b a, b ≠ [] → f b a ≠ []) (l : List ℕ) (hb : b1 ≠ []) :
    (if skip then l.foldl f (if bigCond then bag_inc b1 k1 1 else b1)
     else (if bigCond then bag_inc b1 k1 1 else b1)) ≠ [] := by
  have h2 : (if bigCond then bag_inc b1 k1 1 else b1) ≠ [] := by
    split_ifs
    · exact bag_inc_ne_nil _ _ _
    · exact hb
  by_cases hs : skip = true
  · rw [if_pos hs]
    exact foldl_bag_ne_nil f hf l _ h2
  · rw [if_neg hs]
    exact h2

theorem transform_step_ne_nil (c : SFAConfig) (bps : List (List ℚ))
    (st : TState) (d : List ℚ) (hb : st.bag ≠ []) :
    (transform_step c bps st d).bag ≠ [] := by
  unfold transform_step
  dsimp only
  apply ne_nil_tail_ops
  · intro b a
    split_ifs <;> intro hbb
    · exact bag_inc_ne_nil _ _ _
    · exact bag_inc_ne_nil _ _ _
    · exact hbb
  · split_ifs
    · exact add_to_pyramid_ne_nil _ _ _ _ _ hb
    · exact add_to_bag_ne_nil _ _ _ _ hb

theorem natCast_ne_negOne (w : ℕ) : ¬ ((w : ℤ) = -1) := by omega

theorem create_word_config_nonneg (c : SFAConfig) (bps : List (List ℚ))
    (d : List ℚ) (hA : 1 ≤ c.alphabet_size) (hwb : c.word_bits ≤ 63) :
    0 ≤ create_word d c.word_length c.alphabet_size bps c.letter_bits
      c.word_bits := by
  have has : c.alphabet_size ≤ 2 ^ c.letter_bits := le_pow_clog2 _ hA
  have hwb1 : c.letter_bits * c.word_length ≤ 63 := by
    rw [Nat.mul_comm]
    exact hwb
  exact (create_word_small d c.word_length c.alphabet_size bps c.letter_bits
    c.word_bits has hwb1).2

theorem create_word_config_ne_sentinel (c : SFAConfig) (bps : List (List ℚ))
    (d : List ℚ) (hA : 1 ≤ c.alphabet_size) (hwb : c.word_bits ≤ 63) :
    ¬ (create_word d c.word_length c.alphabet_size bps c.letter_bits
      c.word_bits = (-1 : ℤ)) := by
  have := create_word_config_nonneg c bps d hA hwb
  omega

theorem transform_step_first_ne_nil (c : SFAConfig) (bps : List (List ℚ))
    (d : List ℚ) (hA : 1 ≤ c.alphabet_size) (hwb : c.word_bits ≤ 63) :
    (transform_step c bps init_tstate d).bag ≠ [] := by
  have hne := create_word_config_ne_sentinel c bps d hA hwb
  unfold transform_step init_tstate
  dsimp only
  apply ne_nil_tail_ops
  · intro b a
    split_ifs <;> intro hbb
    · exact bag_inc_ne_nil _ _ _
    · exact bag_inc_ne_nil _ _ _
    · exact hbb
  · split_ifs with hlev
    · unfold add_to_pyramid
      rw [if_neg (fun hand => hne hand.2)]
      apply foldl_pair_ne_nil _ (fun acc a => bag_inc_ne_nil _ _ _)
      right
      have : c.levels ≠ 0 := by omega
      simp [List.range_eq_nil, this]
    · unfold add_to_bag
      rw [if_neg (fun hand => hne hand.2)]
      exact bag_inc_ne_nil _ _ _

theorem transform_foldl_ne_nil (c : SFAConfig) (bps : List (List ℚ)) :
    ∀ (dfts : List (List ℚ)) (st : TState), st.bag ≠ [] →
    (dfts.foldl (transform_step c bps) st).bag ≠ [] := by
  intro dfts
  induction dfts with
  | nil => intro st hb; exact hb
  | cons d dfts ih =>
    intro st hb
    rw [List.foldl_cons]
    exact ih _ (transform_step_ne_nil c bps st d hb)

theorem transform_case_cons_ne_nil (c : SFAConfig) (bps : List (List ℚ))
    (d : List ℚ) (dfts : List (List ℚ)) (hA : 1 ≤ c.alphabet_size)
    (hwb : c.word_bits ≤ 63) :
    (transform_case c bps (d :: dfts)).bag ≠ [] := by
  unfold transform_case
  rw [List.foldl_cons]
  exact transform_foldl_ne_nil c bps dfts _
    (transform_step_first_ne_nil c bps d hA hwb)

theorem transform_step_first_counts (c : SFAConfig) (bps : List (List ℚ))
    (d : List ℚ) (hlev : c.levels ≤ 1) (hA : 1 ≤ c.alphabet_size)
    (hwb : c.word_bits ≤ 63) :
    1 ≤ bag_get (transform_step c bps init_tstate d).bag
      (create_word d c.word_length c.alphabet_size bps c.letter_bits
        c.word_bits) := by
  have hne := create_word_config_ne_sentinel c bps d hA hwb
  unfold transform_step init_tstate
  dsimp only
  have hnl : ¬ 1 < c.levels := by omega
  rw [if_neg hnl]
  have hadd : add_to_bag c []
      (create_word d c.word_length c.alphabet_size bps c.letter_bits c.word_bits)
        (-1)
      = ([(create_word d c.word_length c.alphabet_size bps c.letter_bits
          c.word_bits, 1)], false) := by
    unfold add_to_bag
    rw [if_neg (fun hand => hne hand.2)]
    rfl
  rw [hadd]
  calc (1 : ℕ)
      = bag_get [(create_word d c.word_length c.alphabet_size bps c.letter_bits
          c.word_bits, 1)]
          (create_word d c.word_length c.alphabet_size bps c.letter_bits
            c.word_bits) := by
        simp [bag_get]
    _ ≤ _ := by
        apply bag_le_tail_ops
        intro b a
        split_ifs <;> first
          | exact bag_le_inc _ _ _
          | exact bag_le_refl _

/-- C9 (amended): whenever word_bits ≤ 63 (so that every packed word is
below the int64 sign boundary and hence nonnegative) the first window of
every series is always counted: neither add_to_bag nor add_to_pyramid ever
reports a repeat of a nonnegative word against the sentinel last word -1,
words are indeed nonnegative under that bound, the bag after transforming a
nonempty series is nonempty at every pyramid depth, and on the plain-bag
path (levels ≤ 1) the first word retains a positive count in the final bag.
At word_bits = 64 an all-max word wraps to -1 and collides with the
sentinel, so the bound is necessary.  Pyramid quadrant divisors are assumed
positive (2^(levels - 1) ≤ n_timepoints when levels > 1), since the source
divides by zero otherwise. -/
theorem first_window_always_counted (c : SFAConfig) (bps : List (List ℚ))
    (d : List ℚ) (dfts : List (List ℚ)) (hA : 1 ≤ c.alphabet_size)
    (hwb : c.word_bits ≤ 63)
    (hdiv : 1 < c.levels → 2 ^ (c.levels - 1) ≤ c.n_timepoints) :
    (∀ (bag : Bag) (w : ℤ) (wi : ℕ), 0 ≤ w →
      (add_to_bag c bag w (-1)).2 = false
      ∧ (add_to_pyramid c bag w (-1) wi).2 = false)
    ∧ 0 ≤ create_word d c.word_length c.alphabet_size bps c.letter_bits
        c.word_bits
    ∧ (transform_case c bps (d :: dfts)).bag ≠ []
    ∧ (c.levels ≤ 1 →
        1 ≤ bag_get (transform_case c bps (d :: dfts)).bag
          (create_word d c.word_length c.alphabet_size bps c.letter_bits
            c.word_bits)) := by
  refine ⟨?_, create_word_config_nonneg c bps d hA hwb,
    transform_case_cons_ne_nil c bps d dfts hA hwb, ?_⟩
  · intro bag w wi hw
    constructor
    · unfold add_to_bag
      rw [if_neg (fun hand => absurd hand.2 (by omega))]
    · unfold add_to_pyramid
      rw [if_neg (fun hand => absurd hand.2 (by omega))]
  · intro hlev
    unfold transform_case
    rw [List.foldl_cons]
    exact le_trans (transform_step_first_counts c bps d hlev hA hwb)
      (transform_foldl_bag_le c bps dfts _ _)

/-- C9 (witness) at a concrete one-window series with numerosity reduction
enabled. -/
theorem first_window_always_counted_witness :
    (1 ≤ (⟨1, 2, 1, 1, 1, false, false, true⟩ : SFAConfig).alphabet_size
      ∧ (⟨1, 2, 1, 1, 1, false, false, true⟩ : SFAConfig).word_bits ≤ 63)
    ∧ ((∀ (bag : Bag) (w : ℤ) (wi : ℕ), 0 ≤ w →
        (add_to_bag ⟨1, 2, 1, 1, 1, false, false, true⟩ bag w (-1)).2 = false
        ∧ (add_to_pyramid ⟨1, 2, 1, 1, 1, false, false, true⟩ bag w (-1) wi).2
            = false)
      ∧ 0 ≤ create_word [(1 : ℚ)] 1 2 [[0, 10]]
          (⟨1, 2, 1, 1, 1, false, false, true⟩ : SFAConfig).letter_bits
          (⟨1, 2, 1, 1, 1, false, false, true⟩ : SFAConfig).word_bits
      ∧ (transform_case ⟨1, 2, 1, 1, 1, false, false, true⟩
          [[0, 10]] [[(1 : ℚ)]]).bag ≠ []
      ∧ ((⟨1, 2, 1, 1, 1, false, false, true⟩ : SFAConfig).levels ≤ 1 →
          1 ≤ bag_get (transform_case ⟨1, 2, 1, 1, 1, false, false, true⟩
            [[0, 10]] [[(1 : ℚ)]]).bag
            (create_word [(1 : ℚ)] 1 2 [[0, 10]]
              (⟨1, 2, 1, 1, 1, false, false, true⟩ : SFAConfig).letter_bits
              (⟨1, 2, 1, 1, 1, false, false, true⟩ : SFAConfig).word_bits))) :=
  ⟨⟨by decide, by decide⟩,
   first_window_always_counted ⟨1, 2, 1, 1, 1, false, false, true⟩
     [[0, 10]] [(1 : ℚ)] [] (by decide) (by decide) (by decide)⟩

set_option maxRecDepth 8000 in
/-- C9 (counterexample): at word_bits = 64 (word_length 8, alphabet_size
256) a window whose eight coefficients all land in the top bin packs to the
bit pattern 2^64 - 1, which the njit int64 word path wraps to -1 — exactly
the repeat sentinel — so with numerosity reduction enabled the very first
window of the series is reported as a repeat and the final bag is empty:
the first window is not always counted.  A fitted transformer reaches these
letters whenever a window's coefficients exceed the first 255 breakpoints of
each letter row. -/
theorem first_window_wrap_suppressed :
    create_word (List.replicate 8 (5 : ℚ)) 8 256
        (List.replicate 8 (List.replicate 255 (0 : ℚ) ++ [10])) (clog2 256)
        (⟨8, 256, 1, 1, 1, false, false, true⟩ : SFAConfig).word_bits = -1
    ∧ (add_to_bag ⟨8, 256, 1, 1, 1, false, false, true⟩ [] (-1) (-1)).2 = true
    ∧ (transform_case ⟨8, 256, 1, 1, 1, false, false, true⟩
        (List.replicate 8 (List.replicate 255 (0 : ℚ) ++ [10]))
        [List.replicate 8 (5 : ℚ)]).bag = [] := by
  refine ⟨by decide, by decide, by decide⟩

theorem iterate_mft_length (series phis : List ℚ) (window_size : ℕ)
    (stds : List ℚ) (inv : ℚ) :
    ∀ (n i : ℕ) (md : List ℚ),
    (iterate_mft series phis window_size stds inv n i md).length = n := by
  intro n
  induction n with
  | zero => intro i md; rfl
  | succ n ih =>
    intro i md
    simp only [iterate_mft, List.length_cons]
    rw [ih]

/-- C10 (amended): the incremental transform _mft always emits exactly
max(1, n - window_size + 1) coefficient rows, at least one even when the
window exceeds the series length; and whenever word_bits ≤ 63 (words below
the int64 sign boundary, hence never equal to the repeat sentinel -1) the
bag built from those rows is never empty.  At word_bits = 64 a series whose
windows all wrap to -1 is suppressed entirely by numerosity reduction and
its bag is empty, so the nonemptiness clause needs the bound.  Pyramid
quadrant divisors are assumed positive (2^(levels - 1) ≤ n_timepoints when
levels > 1), since the source divides by zero otherwise. -/
theorem mft_row_count_and_nonempty_bag (cosF sinF sqrtF : ℚ → ℚ)
    (window_size dft_length : ℕ) (norm lower_bounding lbd : Bool)
    (inv : ℚ) (support : Option (List ℕ)) (series : List ℚ)
    (c : SFAConfig) (bps : List (List ℚ)) (hA : 1 ≤ c.alphabet_size)
    (hwb : c.word_bits ≤ 63)
    (hdiv : 1 < c.levels → 2 ^ (c.levels - 1) ≤ c.n_timepoints) :
    (mft cosF sinF sqrtF window_size dft_length norm lower_bounding lbd inv
        support series).length
      = max 1 (series.length - window_size + 1)
    ∧ (transform_case c bps (mft cosF sinF sqrtF window_size dft_length norm
        lower_bounding lbd inv support series)).bag ≠ [] := by
  have hlen : (mft cosF sinF sqrtF window_size dft_length norm lower_bounding
      lbd inv support series).length
      = max 1 (series.length - window_size + 1) := by
    unfold mft
    dsimp only
    cases support with
    | none =>
      cases lower_bounding <;>
        simp [iterate_mft_length, Nat.succ_eq_add_one]
    | some sup =>
      cases lower_bounding <;>
        simp [iterate_mft_length, Nat.succ_eq_add_one]
  refine ⟨hlen, ?_⟩
  have hne : mft cosF sinF sqrtF window_size dft_length norm lower_bounding
      lbd inv support series ≠ [] := by
    intro hcontra
    rw [hcontra] at hlen
    simp at hlen
  obtain ⟨d, rest, hcons⟩ := List.exists_cons_of_ne_nil hne
  rw [hcons]
  exact transform_case_cons_ne_nil c bps d rest hA hwb

/-- C10 (witness) at a one-point series with a window larger than the
series, numerosity reduction enabled. -/
theorem mft_row_count_and_nonempty_bag_witness :
    (1 ≤ (⟨1, 2, 2, 1, 1, false, false, true⟩ : SFAConfig).alphabet_size
      ∧ (⟨1, 2, 2, 1, 1, false, false, true⟩ : SFAConfig).word_bits ≤ 63)
    ∧ ((mft (fun _ => 0) (fun _ => 0) (fun _ => 0) 2 1 false false false 1
          none [(1 : ℚ)]).length
        = max 1 ([(1 : ℚ)].length - 2 + 1)
      ∧ (transform_case ⟨1, 2, 2, 1, 1, false, false, true⟩ [[0, 10]]
          (mft (fun _ => 0) (fun _ => 0) (fun _ => 0) 2 1 false false false 1
            none [(1 : ℚ)])).bag ≠ []) :=
  ⟨⟨by decide, by decide⟩,
   mft_row_count_and_nonempty_bag (fun _ => 0) (fun _ => 0) (fun _ => 0)
     2 1 false false false 1 none [(1 : ℚ)]
     ⟨1, 2, 2, 1, 1, false, false, true⟩ [[0, 10]] (by decide) (by decide)
     (by decide)⟩

set_option maxRecDepth 8000 in
/-- C10 (counterexample): the bag is not always nonempty.  At word_bits = 64
(word_length 8, alphabet_size 256) a two-window coefficient matrix whose
windows both pack to the all-max pattern yields int64 words -1 = the repeat
sentinel, so with numerosity reduction enabled every window of the series is
suppressed and the transform's bag for that series is empty, refuting the
claim that every series always contributes at least one word. -/
theorem wrap_series_empty_bag :
    (transform_case ⟨8, 256, 2, 9, 1, false, false, true⟩
        (List.replicate 8 (List.replicate 255 (0 : ℚ) ++ [10]))
        [List.replicate 8 (5 : ℚ), List.replicate 8 (5 : ℚ)]).bag = [] := by
  decide

theorem transform_step_total_no_repeat (c : SFAConfig) (bps : List (List ℚ))
    (st : TState) (d : List ℚ) (hlev : ¬ 1 < c.levels)
    (hbig : c.bigrams = false) (hskip : c.skip_grams = false)
    (hrm : c.remove_repeat_words = false) :
    bag_total (transform_step c bps st d).bag = bag_total st.bag + 1 := by
  unfold transform_step
  dsimp only
  rw [if_neg hlev]
  simp only [hbig, hskip, Bool.false_eq_true, false_and, if_false]
  unfold add_to_bag
  rw [if_neg (by simp [hrm])]
  exact bag_total_inc _ _ _

theorem transform_foldl_total_no_repeat (c : SFAConfig) (bps : List (List ℚ))
    (hlev : ¬ 1 < c.levels) (hbig : c.bigrams = false)
    (hskip : c.skip_grams = false) (hrm : c.remove_repeat_words = false) :
    ∀ (dfts : List (List ℚ)) (st : TState),
    bag_total (dfts.foldl (transform_step c bps) st).bag
      = bag_total st.bag + dfts.length := by
  intro dfts
  induction dfts with
  | nil => intro st; rfl
  | cons d dfts ih =>
    intro st
    rw [List.foldl_cons, ih,
      transform_step_total_no_repeat c bps st d hlev hbig hskip hrm,
      List.length_cons]
    omega

theorem transform_step_repeat_eq (c : SFAConfig) (bps : List (List ℚ))
    (st : TState) (d : List ℚ) (w : ℤ) (hlev : ¬ 1 < c.levels)
    (hbig : c.bigrams = false) (hskip : c.skip_grams = false)
    (hrm : c.remove_repeat_words = true)
    (hw : create_word d c.word_length c.alphabet_size bps c.letter_bits
      c.word_bits = w)
    (hlast : st.last_word = w) :
    (transform_step c bps st d).bag = st.bag
    ∧ (transform_step c bps st d).last_word = st.last_word := by
  unfold transform_step
  dsimp only
  rw [if_neg hlev, hw]
  have hadd : add_to_bag c st.bag w st.last_word = (st.bag, true) := by
    unfold add_to_bag
    rw [if_pos ⟨hrm, hlast.symm⟩]
  rw [hadd]
  simp [hbig, hskip]

theorem transform_foldl_repeat_const (c : SFAConfig) (bps : List (List ℚ))
    (w : ℤ) (hlev : ¬ 1 < c.levels) (hbig : c.bigrams = false)
    (hskip : c.skip_grams = false) (hrm : c.remove_repeat_words = true) :
    ∀ (dfts : List (List ℚ)) (st : TState),
    (∀ d ∈ dfts, create_word d c.word_length c.alphabet_size bps c.letter_bits
      c.word_bits = w) →
    st.last_word = w →
    (dfts.foldl (transform_step c bps) st).bag = st.bag := by
  intro dfts
  induction dfts with
  | nil => intro st _ _; rfl
  | cons d dfts ih =>
    intro st hw hlast
    rw [List.foldl_cons]
    have hstep := transform_step_repeat_eq c bps st d w hlev hbig hskip hrm
      (hw d (by simp)) hlast
    rw [ih _ (fun x hx => hw x (by simp [hx])) (by rw [hstep.2, hlast]),
      hstep.1]

theorem transform_step_init_const (c : SFAConfig) (bps : List (List ℚ))
    (d : List ℚ) (w : ℤ) (hlev : ¬ 1 < c.levels)
    (hbig : c.bigrams = false) (hskip : c.skip_grams = false)
    (hwne : w ≠ -1)
    (hw : create_word d c.word_length c.alphabet_size bps c.letter_bits
      c.word_bits = w) :
    transform_step c bps init_tstate d = ⟨[(w, 1)], w, 0, 1, [w]⟩ := by
  unfold transform_step init_tstate
  dsimp only
  rw [if_neg hlev, hw]
  have hadd : add_to_bag c [] w (-1) = ([(w, 1)], false) := by
    unfold add_to_bag
    rw [if_neg (fun hand => hwne hand.2)]
    rfl
  rw [hadd]
  simp [hbig, hskip]

/-- C8 (amended): on a series all of whose windows encode to the same word w
(plain bag with levels 1, no bigrams or skip-grams), disabling numerosity
reduction yields total count equal to the number of windows; enabling it
yields a bag of total count 1 concentrated on w provided w is not the int64
repeat sentinel -1 — which is guaranteed whenever word_bits ≤ 63, since
words are then below the int64 sign boundary.  At word_bits = 64 an all-max
window wraps to w = -1, every window including the first is suppressed, and
the total is 0, not 1. -/
theorem numerosity_reduction_totals (c : SFAConfig) (bps : List (List ℚ))
    (w : ℤ) (dfts : List (List ℚ)) (hlev : c.levels = 1)
    (hbig : c.bigrams = false) (hskip : c.skip_grams = false)
    (hw : ∀ d ∈ dfts,
      create_word d c.word_length c.alphabet_size bps c.letter_bits
        c.word_bits = w) :
    (c.remove_repeat_words = true → dfts ≠ [] → w ≠ -1 →
      bag_total (transform_case c bps dfts).bag = 1
      ∧ bag_get (transform_case c bps dfts).bag w = 1)
    ∧ (c.remove_repeat_words = false →
      bag_total (transform_case c bps dfts).bag = dfts.length)
    ∧ (1 ≤ c.alphabet_size → c.word_bits ≤ 63 → dfts ≠ [] → w ≠ -1) := by
  have hnl : ¬ 1 < c.levels := by omega
  refine ⟨?_, ?_, ?_⟩
  · intro hrm hne hwne
    match dfts, hne with
    | d :: rest, _ =>
      unfold transform_case
      rw [List.foldl_cons,
        transform_step_init_const c bps d w hnl hbig hskip hwne (hw d (by simp)),
        transform_foldl_repeat_const c bps w hnl hbig hskip hrm rest _
          (fun x hx => hw x (by simp [hx])) rfl]
      constructor
      · rfl
      · simp [bag_get]
  · intro hrm
    unfold transform_case
    rw [transform_foldl_total_no_repeat c bps hnl hbig hskip hrm dfts init_tstate]
    simp [init_tstate, bag_total]
  · intro hA hwb hne
    match dfts, hne with
    | d :: rest, _ =>
      rw [← hw d (by simp)]
      exact create_word_config_ne_sentinel c bps d hA hwb

/-- C8 (witness): a two-window constant-word series, with and without
numerosity reduction. -/
theorem numerosity_reduction_totals_witness :
    bag_total (transform_case ⟨1, 2, 1, 2, 1, false, false, true⟩
        [[0, 10]] [[(-1 : ℚ)], [(-1 : ℚ)]]).bag = 1
    ∧ bag_total (transform_case ⟨1, 2, 1, 2, 1, false, false, false⟩
        [[0, 10]] [[(-1 : ℚ)], [(-1 : ℚ)]]).bag = 2 :=
  ⟨((numerosity_reduction_totals ⟨1, 2, 1, 2, 1, false, false, true⟩
      [[0, 10]] 0 [[(-1 : ℚ)], [(-1 : ℚ)]] rfl rfl rfl (by decide)).1
      rfl (by simp) (by decide)).1,
   ((numerosity_reduction_totals ⟨1, 2, 1, 2, 1, false, false, false⟩
      [[0, 10]] 0 [[(-1 : ℚ)], [(-1 : ℚ)]] rfl rfl rfl (by decide)).2.1 rfl)⟩

set_option maxRecDepth 8000 in
/-- C8 (counterexample): numerosity reduction does not always leave total
count 1 on a constant-word series.  At word_bits = 64 (word_length 8,
alphabet_size 256) a single-window series whose coefficients all land in
the top bin packs to the pattern 2^64 - 1, which the int64 word path wraps
to -1 — the repeat sentinel — so the lone window is suppressed and the bag
total is 0, not 1. -/
theorem numerosity_reduction_wrap_total_zero :
    create_word (List.replicate 8 (5 : ℚ)) 8 256
        (List.replicate 8 (List.replicate 255 (0 : ℚ) ++ [10])) (clog2 256)
        (⟨8, 256, 1, 8, 1, false, false, true⟩ : SFAConfig).word_bits = -1
    ∧ bag_total (transform_case ⟨8, 256, 1, 8, 1, false, false, true⟩
        (List.replicate 8 (List.replicate 255 (0 : ℚ) ++ [10]))
        [List.replicate 8 (5 : ℚ)]).bag = 0 := by
  refine ⟨by decide, by decide⟩

theorem append_singleton_getD_last {α : Type} :
    ∀ (l : List α) (a d : α), (l ++ [a]).getD l.length d = a := by
  intro l
  induction l with
  | nil => intro a d; rfl
  | cons x l ih => intro a d; simp [ih a d]

theorem range_map_getD {α : Type} (f : ℕ → α) (n i : ℕ) (d : α) (h : i < n) :
    ((List.range n).map f).getD i d = f i := by
  have hi : i < ((List.range n).map f).length := by simp [h]
  rw [List.getD_eq_getElem _ _ hi]
  simp

theorem sorted_getD_mono (l : List ℚ) (h : List.Sorted (· ≤ ·) l)
    (i j : ℕ) (hij : i ≤ j) (hj : j < l.length) (d : ℚ) :
    l.getD i d ≤ l.getD j d := by
  rw [List.getD_eq_getElem l d (lt_of_le_of_lt hij hj), List.getD_eq_getElem l d hj]
  rcases Nat.lt_or_ge i j with hlt | hge
  · exact List.pairwise_iff_getElem.mp h i j _ _ hlt
  · have : i = j := by omega
    subst this
    exact le_rfl

theorem sorted_getD_last_eq_max (l : List ℚ) (x : ℚ)
    (hsort : List.Sorted (· ≤ ·) l) (hx : x ∈ l) (hall : ∀ y ∈ l, y ≤ x) :
    l.getD (l.length - 1) 0 = x := by
  have hne : l ≠ [] := List.ne_nil_of_mem hx
  have hlen : 0 < l.length := List.length_pos.mpr hne
  obtain ⟨i, hi, hix⟩ := List.mem_iff_getElem.mp hx
  apply le_antisymm
  · apply hall
    rw [List.getD_eq_getElem l 0 (by omega)]
    exact List.getElem_mem _
  · have := sorted_getD_mono l hsort i (l.length - 1) (by omega) (by omega) 0
    rw [List.getD_eq_getElem l 0 hi] at this
    rw [hix] at this
    exact this

theorem row_append_max_props (th : List ℚ) (as : ℕ)
    (hlen : th.length = as - 1) (has : 2 ≤ as)
    (hsort : List.Sorted (· ≤ ·) th) (hmax : ∀ x ∈ th, x ≤ FLOAT_MAX) :
    List.Sorted (· ≤ ·) (th ++ [FLOAT_MAX])
    ∧ (th ++ [FLOAT_MAX]).getD ((th ++ [FLOAT_MAX]).length - 1) 0 = FLOAT_MAX
    ∧ ∀ v : ℚ, v ≤ FLOAT_MAX →
        (first_bin v (th ++ [FLOAT_MAX]) as).isSome = true := by
  refine ⟨?_, ?_, ?_⟩
  · rw [List.Sorted, List.pairwise_append]
    exact ⟨hsort, List.pairwise_singleton _ _,
      fun a ha b hb => by
        rw [List.mem_singleton.mp hb]
        exact hmax a ha⟩
  · have : (th ++ [FLOAT_MAX]).length - 1 = th.length := by simp
    rw [this]
    exact append_singleton_getD_last th FLOAT_MAX 0
  · intro v hv
    unfold first_bin
    have hrl : (th ++ [FLOAT_MAX]).length = as := by
      simp [hlen]
      omega
    have htake : (th ++ [FLOAT_MAX]).take as = th ++ [FLOAT_MAX] := by
      rw [← hrl, List.take_length]
    rw [htake]
    exact first_bin_go_isSome v _ 0 ⟨FLOAT_MAX, by simp, hv⟩

theorem equi_depth_index_lt (as total bp : ℕ) (htotal : 1 ≤ total)
    (has : 1 ≤ as) (hbp : bp < as - 1) :
    (⌊((bp + 1 : ℕ) : ℚ) * ((total : ℚ) / (as : ℚ))⌋).toNat < total := by
  have haspos : (0 : ℚ) < (as : ℚ) := by
    exact_mod_cast Nat.lt_of_lt_of_le (by norm_num) has
  have htpos : (0 : ℚ) < (total : ℚ) := by exact_mod_cast htotal
  have hx : ((bp + 1 : ℕ) : ℚ) * ((total : ℚ) / (as : ℚ)) < (total : ℚ) := by
    have h1 : ((bp + 1 : ℕ) : ℚ) < (as : ℚ) := by
      have : bp + 1 < as := by omega
      exact_mod_cast this
    calc ((bp + 1 : ℕ) : ℚ) * ((total : ℚ) / (as : ℚ))
        < (as : ℚ) * ((total : ℚ) / (as : ℚ)) := by
          apply mul_lt_mul_of_pos_right h1
          positivity
      _ = (total : ℚ) := by
          field_simp
  have hfl : ⌊((bp + 1 : ℕ) : ℚ) * ((total : ℚ) / (as : ℚ))⌋ < (total : ℤ) :=
    Int.floor_lt.mpr (by exact_mod_cast hx)
  have hnn : 0 ≤ ⌊((bp + 1 : ℕ) : ℚ) * ((total : ℚ) / (as : ℚ))⌋ := by
    apply Int.floor_nonneg.mpr
    positivity
  omega

theorem equi_depth_index_mono (as total bp bp' : ℕ) (hle : bp ≤ bp') :
    (⌊((bp + 1 : ℕ) : ℚ) * ((total : ℚ) / (as : ℚ))⌋).toNat
      ≤ (⌊((bp' + 1 : ℕ) : ℚ) * ((total : ℚ) / (as : ℚ))⌋).toNat := by
  apply Int.toNat_le_toNat
  apply Int.floor_le_floor
  apply mul_le_mul_of_nonneg_right
  · exact_mod_cast Nat.succ_le_succ hle
  · positivity

theorem equi_depth_th_props (column : List ℚ) (as total : ℕ)
    (has : 2 ≤ as) (htotal : 1 ≤ total)
    (hsort : List.Sorted (· ≤ ·) column) (hcl : column.length = total)
    (hmax : ∀ x ∈ column, x ≤ FLOAT_MAX) :
    ((List.range (as - 1)).map (fun bp =>
        column.getD (⌊((bp + 1 : ℕ) : ℚ) * ((total : ℚ) / (as : ℚ))⌋.toNat) 0)).length
      = as - 1
    ∧ List.Sorted (· ≤ ·) ((List.range (as - 1)).map (fun bp =>
        column.getD (⌊((bp + 1 : ℕ) : ℚ) * ((total : ℚ) / (as : ℚ))⌋.toNat) 0))
    ∧ ∀ x ∈ (List.range (as - 1)).map (fun bp =>
        column.getD (⌊((bp + 1 : ℕ) : ℚ) * ((total : ℚ) / (as : ℚ))⌋.toNat) 0),
        x ≤ FLOAT_MAX := by
  refine ⟨by simp, ?_, ?_⟩
  · rw [List.Sorted, List.pairwise_iff_getElem]
    intro i j hi hj hij
    simp only [List.getElem_map, List.getElem_range]
    simp only [List.length_map, List.length_range] at hi hj
    apply sorted_getD_mono column hsort _ _
      (equi_depth_index_mono as total _ _ (by omega))
      (hcl ▸ equi_depth_index_lt as total j htotal (by omega) hj)
  · intro x hx
    obtain ⟨bp, hbp, rfl⟩ := List.mem_map.mp hx
    rw [List.mem_range] at hbp
    apply hmax
    rw [List.getD_eq_getElem column 0
      (hcl ▸ equi_depth_index_lt as total bp htotal (by omega) hbp)]
    exact List.getElem_mem _

theorem equi_width_th_props (column : List ℚ) (as : ℕ)
    (has : 2 ≤ as) (hne : column ≠ [])
    (hsort : List.Sorted (· ≤ ·) column)
    (hmax : ∀ x ∈ column, x ≤ FLOAT_MAX) :
    ((List.range (as - 1)).map (fun bp =>
        ((bp + 1 : ℕ) : ℚ) * ((column.getD (column.length - 1) 0 - column.getD 0 0) / (as : ℚ))
          + column.getD 0 0)).length = as - 1
    ∧ List.Sorted (· ≤ ·) ((List.range (as - 1)).map (fun bp =>
        ((bp + 1 : ℕ) : ℚ) * ((column.getD (column.length - 1) 0 - column.getD 0 0) / (as : ℚ))
          + column.getD 0 0))
    ∧ ∀ x ∈ (List.range (as - 1)).map (fun bp =>
        ((bp + 1 : ℕ) : ℚ) * ((column.getD (column.length - 1) 0 - column.getD 0 0) / (as : ℚ))
          + column.getD 0 0),
        x ≤ FLOAT_MAX := by
  have hlpos : 0 < column.length := List.length_pos.mpr hne
  have hlohi : column.getD 0 0 ≤ column.getD (column.length - 1) 0 :=
    sorted_getD_mono column hsort 0 (column.length - 1) (by omega) (by omega) 0
  have haspos : (0 : ℚ) < (as : ℚ) := by
    exact_mod_cast Nat.lt_of_lt_of_le (by norm_num) has
  have hwidth : 0 ≤ (column.getD (column.length - 1) 0 - column.getD 0 0) / (as : ℚ) := by
    apply div_nonneg (by linarith) (le_of_lt haspos)
  have hhi : column.getD (column.length - 1) 0 ≤ FLOAT_MAX := by
    apply hmax
    rw [List.getD_eq_getElem column 0 (by omega)]
    exact List.getElem_mem _
  have hval : ∀ bp : ℕ, bp < as - 1 →
      ((bp + 1 : ℕ) : ℚ) * ((column.getD (column.length - 1) 0 - column.getD 0 0) / (as : ℚ))
        + column.getD 0 0 ≤ column.getD (column.length - 1) 0 := by
    intro bp hbp
    have h1 : ((bp + 1 : ℕ) : ℚ) ≤ (as : ℚ) := by
      have : bp + 1 ≤ as := by omega
      exact_mod_cast this
    have h2 : ((bp + 1 : ℕ) : ℚ) * ((column.getD (column.length - 1) 0 - column.getD 0 0) / (as : ℚ))
        ≤ (as : ℚ) * ((column.getD (column.length - 1) 0 - column.getD 0 0) / (as : ℚ)) :=
      mul_le_mul_of_nonneg_right h1 hwidth
    have h3 : (as : ℚ) * ((column.getD (column.length - 1) 0 - column.getD 0 0) / (as : ℚ))
        = column.getD (column.length - 1) 0 - column.getD 0 0 := by
      field_simp
    linarith
  refine ⟨by simp, ?_, ?_⟩
  · rw [List.Sorted, List.pairwise_iff_getElem]
    intro i j hi hj hij
    simp only [List.getElem_map, List.getElem_range]
    have : ((i + 1 : ℕ) : ℚ) ≤ ((j + 1 : ℕ) : ℚ) := by
      exact_mod_cast Nat.succ_le_succ (le_of_lt hij)
    have := mul_le_mul_of_nonneg_right this hwidth
    linarith
  · intro x hx
    obtain ⟨bp, hbp, rfl⟩ := List.mem_map.mp hx
    rw [List.mem_range] at hbp
    exact le_trans (hval bp hbp) hhi

theorem igb_row_props (t : List ℚ) (as : ℕ) (has : 2 ≤ as)
    (hlen : t.length < as) (hmax : ∀ x ∈ t, x ≤ FLOAT_MAX) :
    List.Sorted (· ≤ ·) (igb_row t as)
    ∧ (igb_row t as).getD ((igb_row t as).length - 1) 0 = FLOAT_MAX
    ∧ ∀ v : ℚ, v ≤ FLOAT_MAX → (first_bin v (igb_row t as) as).isSome = true := by
  have htake : t.take as = t := List.take_of_length_le (le_of_lt hlen)
  have hperm := List.perm_insertionSort (· ≤ ·)
    ((t.take as) ++ List.replicate (as - (t.take as).length) FLOAT_MAX)
  have hsort := List.sorted_insertionSort (· ≤ ·)
    ((t.take as) ++ List.replicate (as - (t.take as).length) FLOAT_MAX)
  have hmem : ∀ x ∈ igb_row t as, x ∈ t ∨ x = FLOAT_MAX := by
    intro x hx
    unfold igb_row at hx
    have := hperm.mem_iff.mp hx
    rw [htake, List.mem_append] at this
    rcases this with h | h
    · exact Or.inl h
    · exact Or.inr (List.eq_of_mem_replicate h)
  have hallmax : ∀ x ∈ igb_row t as, x ≤ FLOAT_MAX := by
    intro x hx
    rcases hmem x hx with h | rfl
    · exact hmax x h
    · exact le_rfl
  have hmaxmem : FLOAT_MAX ∈ igb_row t as := by
    unfold igb_row
    rw [hperm.mem_iff, htake, List.mem_append]
    right
    exact List.mem_replicate.mpr ⟨by omega, rfl⟩
  have hrl : (igb_row t as).length = as := by
    unfold igb_row
    rw [List.length_insertionSort, List.length_append, htake,
      List.length_replicate]
    omega
  refine ⟨hsort, ?_, ?_⟩
  · exact sorted_getD_last_eq_max _ _ hsort hmaxmem hallmax
  · intro v hv
    unfold first_bin
    have htk : (igb_row t as).take as = igb_row t as :=
      List.take_of_length_le (le_of_eq hrl)
    rw [htk]
    exact first_bin_go_isSome v _ 0 ⟨FLOAT_MAX, hmaxmem, hv⟩

theorem k_bins_row_last_cov (breaks : List ℚ) (as : ℕ) (has : 2 ≤ as) :
    (k_bins_row breaks as).getD ((k_bins_row breaks as).length - 1) 0 = FLOAT_MAX
    ∧ ∀ v : ℚ, v ≤ FLOAT_MAX →
        (first_bin v (k_bins_row breaks as) as).isSome = true := by
  have hrl : (k_bins_row breaks as).length = as := by
    unfold k_bins_row
    simp
  have hlast : ∀ j, j = as - 1 →
      (if j = as - 1 then FLOAT_MAX
       else if j + 1 < breaks.length - 1 then breaks.getD (j + 1) 0 else 0)
      = FLOAT_MAX := by
    intro j hj
    rw [if_pos hj]
  refine ⟨?_, ?_⟩
  · rw [hrl]
    unfold k_bins_row
    rw [range_map_getD _ as (as - 1) 0 (by omega)]
    exact hlast _ rfl
  · intro v hv
    unfold first_bin
    have htk : (k_bins_row breaks as).take as = k_bins_row breaks as :=
      List.take_of_length_le (le_of_eq hrl)
    rw [htk]
    apply first_bin_go_isSome
    refine ⟨FLOAT_MAX, ?_, hv⟩
    have hidx : as - 1 < (k_bins_row breaks as).length := by omega
    have : (k_bins_row breaks as).getD (as - 1) 0 = FLOAT_MAX := by
      unfold k_bins_row
      rw [range_map_getD _ as (as - 1) 0 (by omega)]
      exact hlast _ rfl
    rw [← this, List.getD_eq_getElem _ 0 hidx]
    exact List.getElem_mem _

theorem k_bins_row_sorted_full (breaks : List ℚ) (as : ℕ) (has : 2 ≤ as)
    (hsort : List.Sorted (· ≤ ·) breaks) (hlen : breaks.length = as + 1)
    (hmax : ∀ x ∈ breaks, x ≤ FLOAT_MAX) :
    List.Sorted (· ≤ ·) (k_bins_row breaks as) := by
  have hrl : (k_bins_row breaks as).length = as := by
    unfold k_bins_row
    simp
  have hval : ∀ j, j < as - 1 →
      (if j = as - 1 then FLOAT_MAX
       else if j + 1 < breaks.length - 1 then breaks.getD (j + 1) 0 else 0)
      = breaks.getD (j + 1) 0 := by
    intro j hj
    rw [if_neg (by omega), if_pos (by omega)]
  have hlast : ∀ j, j = as - 1 →
      (if j = as - 1 then FLOAT_MAX
       else if j + 1 < breaks.length - 1 then breaks.getD (j + 1) 0 else 0)
      = FLOAT_MAX := by
    intro j hj
    rw [if_pos hj]
  have hbrk : ∀ j, j + 1 < breaks.length → breaks.getD (j + 1) 0 ≤ FLOAT_MAX := by
    intro j hj
    apply hmax
    rw [List.getD_eq_getElem breaks 0 hj]
    exact List.getElem_mem _
  rw [List.Sorted, List.pairwise_iff_getElem]
  intro i j hi hj hij
  rw [hrl] at hi hj
  unfold k_bins_row
  simp only [List.getElem_map, List.getElem_range]
  by_cases hjlast : j = as - 1
  · rw [hlast j hjlast, hval i (by omega)]
    exact hbrk i (by omega)
  · rw [hval i (by omega), hval j (by omega)]
    exact sorted_getD_mono breaks hsort (i + 1) (j + 1) (by omega) (by omega) 0

theorem mcb_row_props (dft : List (List ℚ))
    (word_length alphabet_size n_cases n_timepoints window_size : ℕ)
    (binning_method : String)
    (hm : binning_method = "equi-depth" ∨ binning_method = "equi-width")
    (has : 2 ≤ alphabet_size)
    (htotal : 1 ≤ n_cases * ((n_timepoints + window_size - 1) / window_size))
    (hbound : ∀ i letter,
      i < n_cases * ((n_timepoints + window_size - 1) / window_size) →
      letter < word_length →
      (py_round ((dft.getD i []).getD letter 0 * 100) : ℚ) / 100 ≤ FLOAT_MAX) :
    ∀ row ∈ mcb dft word_length alphabet_size n_cases n_timepoints window_size
        binning_method,
      List.Sorted (· ≤ ·) row
      ∧ row.getD (row.length - 1) 0 = FLOAT_MAX
      ∧ ∀ v : ℚ, v ≤ FLOAT_MAX →
          (first_bin v row alphabet_size).isSome = true := by
  intro row hrow
  unfold mcb at hrow
  obtain ⟨letter, hletter, hroweq⟩ := List.mem_map.mp hrow
  rw [List.mem_range] at hletter
  dsimp only at hroweq
  subst hroweq
  have hsortcol := List.sorted_insertionSort (· ≤ ·)
    ((List.range (n_cases * ((n_timepoints + window_size - 1) / window_size))).map
      (fun i => (py_round ((dft.getD i []).getD letter 0 * 100) : ℚ) / 100))
  have hpermcol := List.perm_insertionSort (· ≤ ·)
    ((List.range (n_cases * ((n_timepoints + window_size - 1) / window_size))).map
      (fun i => (py_round ((dft.getD i []).getD letter 0 * 100) : ℚ) / 100))
  have hclen : (((List.range (n_cases * ((n_timepoints + window_size - 1) / window_size))).map
      (fun i => (py_round ((dft.getD i []).getD letter 0 * 100) : ℚ) / 100)).insertionSort
        (· ≤ ·)).length
      = n_cases * ((n_timepoints + window_size - 1) / window_size) := by
    rw [List.length_insertionSort, List.length_map, List.length_range]
  have hcmax : ∀ x ∈ ((List.range (n_cases * ((n_timepoints + window_size - 1) / window_size))).map
      (fun i => (py_round ((dft.getD i []).getD letter 0 * 100) : ℚ) / 100)).insertionSort (· ≤ ·),
      x ≤ FLOAT_MAX := by
    intro x hx
    rw [hpermcol.mem_iff] at hx
    obtain ⟨i, hi, rfl⟩ := List.mem_map.mp hx
    rw [List.mem_range] at hi
    exact hbound i letter hi hletter
  rcases hm with rfl | rfl
  · rw [if_pos rfl]
    have hth := equi_depth_th_props _ alphabet_size _ has htotal hsortcol hclen hcmax
    exact row_append_max_props _ alphabet_size hth.1 has hth.2.1 hth.2.2
  · rw [if_neg (by decide), if_pos rfl]
    have hcne : ((List.range (n_cases * ((n_timepoints + window_size - 1) / window_size))).map
        (fun i => (py_round ((dft.getD i []).getD letter 0 * 100) : ℚ) / 100)).insertionSort (· ≤ ·)
        ≠ [] := by
      intro hc
      rw [hc] at hclen
      simp only [List.length_nil] at hclen
      omega
    have hth := equi_width_th_props _ alphabet_size has hcne hsortcol hcmax
    exact row_append_max_props _ alphabet_size hth.1 has hth.2.1 hth.2.2

theorem mcb_single_eval :
    mcb [[(0 : ℚ)]] 1 2 1 1 1 "equi-depth" = [[0, FLOAT_MAX]] := by
  unfold mcb
  dsimp only
  norm_num
  have hround : py_round (0 : ℚ) = 0 := by
    simp [py_round, round_zero]
  simp [hround, List.insertionSort, List.orderedInsert]

/-- C5 (counterexample): the last breakpoint column written by _mcb is
sys.float_info.max, the largest finite double, not plus infinity: a
coefficient value exceeding it falls into no bin, so the claimed
classification totality fails. -/
theorem breakpoint_last_not_infinite :
    mcb [[(0 : ℚ)]] 1 2 1 1 1 "equi-depth" = [[0, FLOAT_MAX]]
    ∧ first_bin (FLOAT_MAX + 1) [0, FLOAT_MAX] 2 = none := by
  refine ⟨mcb_single_eval, ?_⟩
  have h0 : ¬ (FLOAT_MAX + 1 ≤ (0 : ℚ)) := by norm_num [FLOAT_MAX]
  have h1 : ¬ (FLOAT_MAX + 1 ≤ FLOAT_MAX) := by norm_num
  simp [first_bin, first_bin_go, h0, h1]

/-- C5 (amended): every letter row of a fitted breakpoint matrix ends in
sys.float_info.max, the largest finite double (not plus infinity), so every
coefficient value not exceeding that bound falls into some bin while a value
above it falls into no bin; and the rows are non-decreasing for the
equi-depth and equi-width rows of _mcb, for the _igb and _igb_mae rows built
from decision-tree thresholds (externally guaranteed to number fewer than
alphabet_size and to be finite doubles), and for the _k_bins_discretizer
rows whenever the external KBinsDiscretizer returns a full ascending edge
list of alphabet_size + 1 edges.  When the discretizer drops edges (fewer
than alphabet_size + 1), the untouched positions keep their zero
initialisation and the kmeans row need not be monotone: the three-edge list
[0, 5, 10] at alphabet_size 4 yields the unsorted row [5, 0, 0, DBL_MAX],
though its last entry is still DBL_MAX and bounded values still classify. -/
theorem breakpoint_rows_sorted_last_max (dft : List (List ℚ))
    (word_length alphabet_size n_cases n_timepoints window_size : ℕ)
    (binning_method : String) (thresholds : List (List ℚ)) (breaks : List ℚ)
    (hm : binning_method = "equi-depth" ∨ binning_method = "equi-width")
    (has : 2 ≤ alphabet_size)
    (htotal : 1 ≤ n_cases * ((n_timepoints + window_size - 1) / window_size))
    (hbound : ∀ i letter,
      i < n_cases * ((n_timepoints + window_size - 1) / window_size) →
      letter < word_length →
      (py_round ((dft.getD i []).getD letter 0 * 100) : ℚ) / 100 ≤ FLOAT_MAX)
    (hth : ∀ t ∈ thresholds, t.length < alphabet_size ∧ ∀ x ∈ t, x ≤ FLOAT_MAX) :
    (∀ row ∈ mcb dft word_length alphabet_size n_cases n_timepoints
        window_size binning_method,
      List.Sorted (· ≤ ·) row
      ∧ row.getD (row.length - 1) 0 = FLOAT_MAX
      ∧ ∀ v : ℚ, v ≤ FLOAT_MAX → (first_bin v row alphabet_size).isSome = true)
    ∧ (∀ row ∈ igb thresholds alphabet_size,
      List.Sorted (· ≤ ·) row
      ∧ row.getD (row.length - 1) 0 = FLOAT_MAX
      ∧ ∀ v : ℚ, v ≤ FLOAT_MAX → (first_bin v row alphabet_size).isSome = true)
    ∧ ((k_bins_row breaks alphabet_size).getD
          ((k_bins_row breaks alphabet_size).length - 1) 0 = FLOAT_MAX
      ∧ (∀ v : ℚ, v ≤ FLOAT_MAX →
          (first_bin v (k_bins_row breaks alphabet_size) alphabet_size).isSome
            = true)
      ∧ (List.Sorted (· ≤ ·) breaks → breaks.length = alphabet_size + 1 →
          (∀ x ∈ breaks, x ≤ FLOAT_MAX) →
          List.Sorted (· ≤ ·) (k_bins_row breaks alphabet_size))
      ∧ k_bins_row [0, 5, 10] 4 = [5, 0, 0, FLOAT_MAX]
      ∧ ¬ List.Sorted (· ≤ ·) (k_bins_row [0, 5, 10] 4)) := by
  have heval : k_bins_row [(0 : ℚ), 5, 10] 4 = [5, 0, 0, FLOAT_MAX] := by rfl
  refine ⟨mcb_row_props dft word_length alphabet_size n_cases n_timepoints
      window_size binning_method hm has htotal hbound, ?_,
    (k_bins_row_last_cov breaks alphabet_size has).1,
    (k_bins_row_last_cov breaks alphabet_size has).2,
    k_bins_row_sorted_full breaks alphabet_size has,
    heval, ?_⟩
  · intro row hrow
    obtain ⟨t, ht, rfl⟩ := List.mem_map.mp hrow
    exact igb_row_props t alphabet_size has (hth t ht).1 (hth t ht).2
  · rw [heval]
    intro hcontra
    rw [List.sorted_cons] at hcontra
    have h50 := hcontra.1 0 (by simp)
    norm_num at h50

/-- C5 (witness): the single equi-depth row of a one-value training set is
sorted and ends in the float maximum, and the short-edge kmeans row is
unsorted. -/
theorem breakpoint_rows_sorted_last_max_witness :
    (List.Sorted (· ≤ ·) [(0 : ℚ), FLOAT_MAX]
      ∧ [(0 : ℚ), FLOAT_MAX].getD 1 0 = FLOAT_MAX)
    ∧ ¬ List.Sorted (· ≤ ·) (k_bins_row [0, 5, 10] 4) :=
  have hfull := breakpoint_rows_sorted_last_max [[(0 : ℚ)]] 1 2 1 1 1
      "equi-depth" [[(0 : ℚ)]] [0, 1, 2] (Or.inl rfl) (by norm_num)
      (by norm_num)
      (by
        intro i letter hi hl
        interval_cases i
        interval_cases letter
        simp [py_round, round_zero]
        norm_num [FLOAT_MAX])
      (by
        intro t ht
        rw [List.mem_singleton] at ht
        subst ht
        refine ⟨by norm_num, ?_⟩
        intro x hx
        rw [List.mem_singleton] at hx
        subst hx
        norm_num [FLOAT_MAX])
  have h := hfull.1 [(0 : ℚ), FLOAT_MAX] (by rw [mcb_single_eval]; simp)
  ⟨⟨h.1, by simpa using h.2.1⟩, hfull.2.2.2.2.2.2⟩

theorem transform_step_words (c : SFAConfig) (bps : List (List ℚ))
    (st : TState) (d : List ℚ) :
    (transform_step c bps st d).words
      = st.words ++ [create_word d c.word_length c.alphabet_size bps
          c.letter_bits c.word_bits] :=
  rfl

theorem transform_foldl_words (c : SFAConfig) (bps : List (List ℚ)) :
    ∀ (dfts : List (List ℚ)) (st : TState),
    (dfts.foldl (transform_step c bps) st).words
      = st.words ++ dfts.map
          (fun d => create_word d c.word_length c.alphabet_size bps
            c.letter_bits c.word_bits) := by
  intro dfts
  induction dfts with
  | nil => intro st; simp
  | cons d dfts ih =>
    intro st
    rw [List.foldl_cons, ih, transform_step_words, List.map_cons]
    simp

theorem add_to_bag_update (c : SFAConfig) (L : ℕ) (b : Bag) (w lw : ℤ) :
    add_to_bag { c with word_length := L } b w lw = add_to_bag c b w lw := rfl

theorem update_levels (c : SFAConfig) (L : ℕ) :
    ({ c with word_length := L } : SFAConfig).levels = c.levels := rfl

theorem update_word_length (c : SFAConfig) (L : ℕ) :
    ({ c with word_length := L } : SFAConfig).word_length = L := rfl

theorem update_alphabet_size (c : SFAConfig) (L : ℕ) :
    ({ c with word_length := L } : SFAConfig).alphabet_size = c.alphabet_size := rfl

theorem update_bigrams (c : SFAConfig) (L : ℕ) :
    ({ c with word_length := L } : SFAConfig).bigrams = c.bigrams := rfl

theorem update_skip_grams (c : SFAConfig) (L : ℕ) :
    ({ c with word_length := L } : SFAConfig).skip_grams = c.skip_grams := rfl

theorem update_letter_bits (c : SFAConfig) (L : ℕ) :
    ({ c with word_length := L } : SFAConfig).letter_bits = c.letter_bits := rfl

theorem update_word_bits (c : SFAConfig) (L : ℕ) :
    ({ c with word_length := L } : SFAConfig).word_bits = L * c.letter_bits := rfl

theorem update_level_bits (c : SFAConfig) (L : ℕ) :
    ({ c with word_length := L } : SFAConfig).level_bits = c.level_bits := rfl

theorem add_level_update (c : SFAConfig) (L : ℕ) (hL : L ≤ c.word_length)
    (hwb : c.word_bits + c.level_bits ≤ 64) (w : ℤ) (s lv wi : ℕ) :
    add_level { c with word_length := L } w s lv wi = add_level c w s lv wi := by
  have h1 : ({ c with word_length := L } : SFAConfig).word_bits ≤ c.word_bits :=
    Nat.mul_le_mul_right _ hL
  have h2 : ({ c with word_length := L } : SFAConfig).level_bits
      = c.level_bits := rfl
  have hcond : ({ c with word_length := L } : SFAConfig).word_bits
      + ({ c with word_length := L } : SFAConfig).level_bits ≤ 64 := by omega
  unfold add_level
  dsimp only
  rw [if_pos hcond, if_pos hwb, h2]

theorem add_to_pyramid_update (c : SFAConfig) (L : ℕ) (hL : L ≤ c.word_length)
    (hwb : c.word_bits + c.level_bits ≤ 64) (b : Bag) (w lw : ℤ) (wi : ℕ) :
    add_to_pyramid { c with word_length := L } b w lw wi
      = add_to_pyramid c b w lw wi := by
  unfold add_to_pyramid
  simp only [add_level_update c L hL hwb]

theorem shorten_new_word_eq (c : SFAConfig) (bps : List (List ℚ)) (L : ℕ)
    (hL : L ≤ c.word_length) (hA : 1 ≤ c.alphabet_size)
    (hwb : c.word_bits ≤ 63) (d : List ℚ)
    (hqd : ∀ i, i < c.word_length →
      (first_bin (d.getD i 0) (bps.getD i []) c.alphabet_size).isSome = true) :
    shorten_word (create_word d c.word_length c.alphabet_size bps c.letter_bits
        c.word_bits) (c.word_length - L) c.letter_bits
      = create_word d L c.alphabet_size (bps.take L) c.letter_bits
          (L * c.letter_bits) := by
  have has : c.alphabet_size ≤ 2 ^ c.letter_bits := le_pow_clog2 _ hA
  have hwb1 : c.letter_bits * c.word_length ≤ 63 := by
    rw [Nat.mul_comm]
    exact hwb
  have hwb2 : c.letter_bits * L ≤ 63 :=
    le_trans (Nat.mul_le_mul_left _ hL) hwb1
  rw [(create_word_small d c.word_length c.alphabet_size bps c.letter_bits
      c.word_bits has hwb1).1,
    (create_word_small d L c.alphabet_size (bps.take L) c.letter_bits
      (L * c.letter_bits) has hwb2).1,
    shorten_word_cast,
    shorten_create_word d c.word_length L c.alphabet_size c.letter_bits bps
      hL has hqd]

theorem shorten_transform_step_eq (c : SFAConfig) (bps : List (List ℚ))
    (L : ℕ) (hL : L ≤ c.word_length) (hA : 1 ≤ c.alphabet_size)
    (hbig : c.bigrams = false) (hskip : c.skip_grams = false)
    (hwb : c.word_bits + c.level_bits ≤ 63)
    (saved : List ℤ) (d : List ℚ)
    (hqd : ∀ i, i < c.word_length →
      (first_bin (d.getD i 0) (bps.getD i []) c.alphabet_size).isSome = true)
    (bag : Bag) (lw : ℤ) (reps idx : ℕ) (words : List ℤ) :
    (shorten_step c saved L ⟨bag, lw, reps, idx⟩
        (create_word d c.word_length c.alphabet_size bps c.letter_bits
          c.word_bits)).bag
      = (transform_step { c with word_length := L } (bps.take L)
          ⟨bag, lw, reps, idx, words⟩ d).bag
    ∧ (shorten_step c saved L ⟨bag, lw, reps, idx⟩
        (create_word d c.word_length c.alphabet_size bps c.letter_bits
          c.word_bits)).last_word
      = (transform_step { c with word_length := L } (bps.take L)
          ⟨bag, lw, reps, idx, words⟩ d).last_word
    ∧ (shorten_step c saved L ⟨bag, lw, reps, idx⟩
        (create_word d c.word_length c.alphabet_size bps c.letter_bits
          c.word_bits)).repeat_words
      = (transform_step { c with word_length := L } (bps.take L)
          ⟨bag, lw, reps, idx, words⟩ d).repeat_words
    ∧ (shorten_step c saved L ⟨bag, lw, reps, idx⟩
        (create_word d c.word_length c.alphabet_size bps c.letter_bits
          c.word_bits)).idx
      = (transform_step { c with word_length := L } (bps.take L)
          ⟨bag, lw, reps, idx, words⟩ d).idx := by
  unfold shorten_step transform_step
  dsimp only
  rw [shorten_new_word_eq c bps L hL hA (by omega) d hqd]
  simp only [update_levels, update_word_length, update_alphabet_size,
    update_bigrams, update_skip_grams, update_letter_bits, update_word_bits,
    add_to_pyramid_update c L hL (by omega), add_to_bag_update]
  simp only [hbig, hskip, Bool.false_eq_true, false_and, if_false]
  simp

theorem shorten_scratch_loop (c : SFAConfig) (bps : List (List ℚ)) (L : ℕ)
    (hL : L ≤ c.word_length) (hA : 1 ≤ c.alphabet_size)
    (hbig : c.bigrams = false) (hskip : c.skip_grams = false)
    (hwb : c.word_bits + c.level_bits ≤ 63)
    (saved : List ℤ) :
    ∀ (dfts : List (List ℚ)),
    (∀ dft ∈ dfts, ∀ i, i < c.word_length →
      (first_bin (dft.getD i 0) (bps.getD i []) c.alphabet_size).isSome = true) →
    ∀ (bag : Bag) (lw : ℤ) (reps idx : ℕ) (words : List ℤ),
    ((dfts.map (fun d =>
        create_word d c.word_length c.alphabet_size bps c.letter_bits
          c.word_bits)).foldl
        (shorten_step c saved L) ⟨bag, lw, reps, idx⟩).bag
      = ((dfts.foldl (transform_step { c with word_length := L } (bps.take L))
          ⟨bag, lw, reps, idx, words⟩)).bag := by
  intro dfts
  induction dfts with
  | nil => intro _ bag lw reps idx words; rfl
  | cons d dfts ih =>
    intro hq bag lw reps idx words
    rw [List.map_cons, List.foldl_cons, List.foldl_cons]
    have hstep := shorten_transform_step_eq c bps L hL hA hbig hskip hwb saved d
      (hq d (by simp)) bag lw reps idx words
    have hs1 : shorten_step c saved L ⟨bag, lw, reps, idx⟩
        (create_word d c.word_length c.alphabet_size bps c.letter_bits
          c.word_bits)
        = ⟨(transform_step { c with word_length := L } (bps.take L)
              ⟨bag, lw, reps, idx, words⟩ d).bag,
           (transform_step { c with word_length := L } (bps.take L)
              ⟨bag, lw, reps, idx, words⟩ d).last_word,
           (transform_step { c with word_length := L } (bps.take L)
              ⟨bag, lw, reps, idx, words⟩ d).repeat_words,
           (transform_step { c with word_length := L } (bps.take L)
              ⟨bag, lw, reps, idx, words⟩ d).idx⟩ := by
      obtain ⟨e1, e2, e3, e4⟩ := hstep
      calc shorten_step c saved L ⟨bag, lw, reps, idx⟩
            (create_word d c.word_length c.alphabet_size bps c.letter_bits
              c.word_bits)
          = ⟨(shorten_step c saved L ⟨bag, lw, reps, idx⟩
                (create_word d c.word_length c.alphabet_size bps c.letter_bits
                  c.word_bits)).bag,
             (shorten_step c saved L ⟨bag, lw, reps, idx⟩
                (create_word d c.word_length c.alphabet_size bps c.letter_bits
                  c.word_bits)).last_word,
             (shorten_step c saved L ⟨bag, lw, reps, idx⟩
                (create_word d c.word_length c.alphabet_size bps c.letter_bits
                  c.word_bits)).repeat_words,
             (shorten_step c saved L ⟨bag, lw, reps, idx⟩
                (create_word d c.word_length c.alphabet_size bps c.letter_bits
                  c.word_bits)).idx⟩ := rfl
        _ = _ := by rw [e1, e2, e3, e4]
    rw [hs1]
    exact ih (fun x hx => hq x (by simp [hx]))
      (transform_step { c with word_length := L } (bps.take L)
        ⟨bag, lw, reps, idx, words⟩ d).bag
      (transform_step { c with word_length := L } (bps.take L)
        ⟨bag, lw, reps, idx, words⟩ d).last_word
      (transform_step { c with word_length := L } (bps.take L)
        ⟨bag, lw, reps, idx, words⟩ d).repeat_words
      (transform_step { c with word_length := L } (bps.take L)
        ⟨bag, lw, reps, idx, words⟩ d).idx
      (transform_step { c with word_length := L } (bps.take L)
        ⟨bag, lw, reps, idx, words⟩ d).words

/-- C1 (amended): with bigrams and skip-grams disabled, with all packed keys
below the int64 sign boundary (word_bits + level_bits ≤ 63, which keeps the
int64 word path free of sign wrap and both pyramid dispatches on the same
branch), and with pyramid quadrant divisors positive
(2^(levels - 1) ≤ n_timepoints when levels > 1), shortening the saved
full-length words to any length L between 1 and word_length produces, for
each series, exactly the bag that a from-scratch transform with
word_length = L and breakpoints truncated to the first L rows produces,
including numerosity-reduction and pyramid handling.  With bigrams or
skip-grams enabled the bags differ (the shortened path composes n-gram keys
with the original word_bits shift, the from-scratch transform with the
shorter width), and at word_bits = 64 they differ again: the saved all-max
word is the int64 value -1, numpy's arithmetic shift keeps it -1, while the
from-scratch length-L word is the positive value 2^(L * letter_bits) - 1. -/
theorem shorten_case_matches_short_transform (c : SFAConfig)
    (bps : List (List ℚ)) (dfts : List (List ℚ)) (L : ℕ)
    (hL1 : 1 ≤ L) (hL : L ≤ c.word_length) (hA : 1 ≤ c.alphabet_size)
    (hbig : c.bigrams = false) (hskip : c.skip_grams = false)
    (hwb : c.word_bits + c.level_bits ≤ 63)
    (hdiv : 1 < c.levels → 2 ^ (c.levels - 1) ≤ c.n_timepoints)
    (hq : ∀ dft ∈ dfts, ∀ i, i < c.word_length →
      (first_bin (dft.getD i 0) (bps.getD i []) c.alphabet_size).isSome = true) :
    shorten_case c L ((transform_case c bps dfts).words)
      = (transform_case { c with word_length := L } (bps.take L) dfts).bag := by
  have hwords : (transform_case c bps dfts).words
      = dfts.map (fun d =>
          create_word d c.word_length c.alphabet_size bps c.letter_bits
            c.word_bits) := by
    unfold transform_case
    rw [transform_foldl_words]
    simp [init_tstate]
  rw [hwords]
  unfold shorten_case transform_case
  exact shorten_scratch_loop c bps L hL hA hbig hskip hwb _ dfts hq [] (-1) 0 0 []

/-- C1 (witness) at a one-window series shortened from word length 2 to 1. -/
theorem shorten_case_matches_short_transform_witness :
    ((⟨2, 2, 1, 2, 1, false, false, false⟩ : SFAConfig).word_bits
        + (⟨2, 2, 1, 2, 1, false, false, false⟩ : SFAConfig).level_bits ≤ 63)
    ∧ shorten_case ⟨2, 2, 1, 2, 1, false, false, false⟩ 1
        ((transform_case ⟨2, 2, 1, 2, 1, false, false, false⟩
          [[0, 10], [0, 10]] [[(1 : ℚ), -1]]).words)
      = (transform_case
          { (⟨2, 2, 1, 2, 1, false, false, false⟩ : SFAConfig) with word_length := 1 }
          (([[0, 10], [0, 10]] : List (List ℚ)).take 1) [[(1 : ℚ), -1]]).bag :=
  ⟨by decide,
   shorten_case_matches_short_transform ⟨2, 2, 1, 2, 1, false, false, false⟩
     [[0, 10], [0, 10]] [[(1 : ℚ), -1]] 1 le_rfl (by norm_num) (by norm_num)
     rfl rfl (by decide) (by decide) (by decide)⟩

/-- C1 (counterexample): with bigrams enabled, shortening saved words of a
fitted word_length 2 transformer to length 1 does not reproduce the bag of a
from-scratch transform at word_length 1: the shortened path composes the
bigram key with the original word_bits = 2 shift (key 4), the from-scratch
transform with the shorter word_bits = 1 shift (key 2), so the bag contents
differ at key 4. -/
theorem shorten_bigram_key_mismatch :
    bag_get (shorten_case ⟨2, 2, 1, 2, 1, true, false, false⟩ 1
        ((transform_case ⟨2, 2, 1, 2, 1, true, false, false⟩
          [[0, 10], [0, 10]] [[(1 : ℚ), -1], [(-1 : ℚ), -1]]).words)) 4
      ≠ bag_get (transform_case
          { (⟨2, 2, 1, 2, 1, true, false, false⟩ : SFAConfig) with word_length := 1 }
          (([[0, 10], [0, 10]] : List (List ℚ)).take 1)
          [[(1 : ℚ), -1], [(-1 : ℚ), -1]]).bag 4 := by
  decide
